import Mathlib

/-!
Verification of the `HTMLBuilder` template compiler embedded in the
WindowStructure repository.  The definitions below are a shallow embedding of
the TypeScript class `HTMLBuilder`: strings are modelled as `List Char`, DOM
elements as a pure tree type `Elem`, and thrown exceptions as `Except` values.
Platform capabilities that the compiler merely calls out to (HTML-entity
decoding, which the source delegates to a DOM `textarea`) are passed in as
function parameters.
-/

namespace WindowStructure

/-- Characters treated as whitespace by JS `String.prototype.trim` (restricted
to the ASCII whitespace that can occur in this repository's templates). -/
def isWS (c : Char) : Bool := c = ' ' || c = '\t' || c = '\n' || c = '\r'

/-- Remove leading whitespace. -/
def trimLeft (l : List Char) : List Char := l.dropWhile isWS

/-- Remove trailing whitespace. -/
def trimRight (l : List Char) : List Char := (l.reverse.dropWhile isWS).reverse

/-- Model of JS `s.trim()`. -/
def jsTrim (l : List Char) : List Char := trimRight (trimLeft l)

/-- Model of JS `s.split(sep)` for a one-character separator: the empty string
splits to `[[]]`, and separators delimit (possibly empty) segments. -/
def splitOnChar (sep : Char) : List Char → List (List Char)
  | [] => [[]]
  | c :: rest =>
    let r := splitOnChar sep rest
    if c = sep then [] :: r
    else
      match r with
      | [] => [[c]]
      | h :: t => (c :: h) :: t

/-- JS `\w`: ASCII letters, digits and underscore. -/
def isWordChar (c : Char) : Bool := c.isAlpha || c.isDigit || c = '_'

/-- The character class `[\w-]` used for class tokens and ids. -/
def isTokenChar (c : Char) : Bool := isWordChar c || c = '-'

/-- The character class `[\w;]` used for the event group. -/
def isEventChar (c : Char) : Bool := isWordChar c || c = ';'

/-- Longest prefix satisfying `p` together with the rest of the list. -/
def spanWhile (p : Char → Bool) : List Char → List Char × List Char
  | [] => ([], [])
  | c :: rest =>
    if p c then
      let s := spanWhile p rest
      (c :: s.1, s.2)
    else ([], c :: rest)

theorem spanWhile_snd_length_le (p : Char → Bool) (l : List Char) :
    ((spanWhile p l).2).length ≤ l.length := by
  induction l with
  | nil => simp [spanWhile]
  | cons c rest ih =>
    by_cases h : p c
    · simp only [spanWhile, h, if_pos]
      exact Nat.le_succ_of_le ih
    · simp [spanWhile, h]

/-- The record of capture groups produced by `REGEX.exec`; `none` models an
`undefined` group (absent from the match). -/
structure RegexGroups where
  tagGroup : Option (List Char)
  classGroup : Option (List Char)
  idGroup : Option (List Char)
  contentGroup : Option (List Char)
  attrGroup : Option (List Char)
  eventGroup : Option (List Char)
deriving Repr, DecidableEq

/-- The interior of the class piece once a `.` has been consumed: consume the
`[\w-]*` token run, and a further `.` starts the next `\.[\w-]*` iteration. -/
def scanClassesRun : List Char → List Char × List Char
  | [] => ([], [])
  | c :: rest =>
    if isTokenChar c then
      let r := scanClassesRun rest
      (c :: r.1, r.2)
    else if c = '.' then
      let r := scanClassesRun rest
      ('.' :: r.1, r.2)
    else ([], c :: rest)

/-- The repeated class piece `((?:\.[\w-]*)*)*` of the pattern: consume a run
of `.token` groups; the capture is the whole consumed run (empty when no `.`
is present, in which case the JS group is `undefined`). -/
def scanClasses : List Char → List Char × List Char
  | '.' :: rest =>
    let r := scanClassesRun rest
    ('.' :: r.1, r.2)
  | cs => ([], cs)

/-- The interior of the event piece once a `@` has been consumed: consume the
`[\w;]*` run into the capture accumulator; a further `@` starts the next
iteration, resetting the capture (JS keeps the last iteration's capture). -/
def scanEventsRun : List Char → List Char → Option (List Char) × List Char
  | [], acc => (some acc.reverse, [])
  | c :: rest, acc =>
    if isEventChar c then scanEventsRun rest (c :: acc)
    else if c = '@' then scanEventsRun rest []
    else (some acc.reverse, c :: rest)

/-- The repeated event piece `(?:\@([\w;]*))*`: each iteration consumes `@`
followed by a (possibly empty) run of `[\w;]`; the JS capture keeps the run of
the last iteration (`undefined` when there is no `@` iteration at all). -/
def scanEvents : List Char → Option (List Char) → Option (List Char) × List Char
  | '@' :: rest, _ => scanEventsRun rest []
  | cs, g => (g, cs)

/-- Split `l` around its last occurrence of `ch`: `some (before, after)` with
`l = before ++ [ch] ++ after` and `ch ∉ after`; `none` when `ch ∉ l`.  This is
how a greedy `(.*)` followed by the literal `ch` matches. -/
def breakAtLast (ch : Char) (l : List Char) : Option (List Char × List Char) :=
  let rev := l.reverse
  match rev.dropWhile (fun c => !(c = ch)) with
  | [] => none
  | _ :: before => some (before.reverse, (rev.takeWhile (fun c => !(c = ch))).reverse)

/-- Model of `REGEX.exec(line)` for the source pattern

`/(\w+)((?:\.[\w-]*)*)*(#[\w-]*)?(?:\((.*)\))?(?:\[(.*)\])?(?:\@([\w;]*))*/`.

The pattern is unanchored and every piece after `(\w+)` can match the empty
string, so the leftmost match starts at the leftmost word character (`none`
when the line has no word character, modelling `exec` returning `null`).
From there each greedy piece consumes in sequence; a greedy `(.*)` closed by a
delimiter consumes up to the last such delimiter in the line, and when the
closing delimiter is missing the enclosing optional group matches the empty
string instead. -/
def regexExec (line : List Char) : Option RegexGroups :=
  let rest0 := line.dropWhile (fun c => !(isWordChar c))
  if rest0 = [] then none
  else
    let s1 := spanWhile isWordChar rest0
    let cls := scanClasses s1.2
    let idStep : Option (List Char) × List Char :=
      match cls.2 with
      | '#' :: r =>
        let s := spanWhile isTokenChar r
        (some ('#' :: s.1), s.2)
      | other => (none, other)
    let contentStep : Option (List Char) × List Char :=
      match idStep.2 with
      | '(' :: r =>
        match breakAtLast ')' r with
        | some (inside, after) => (some inside, after)
        | none => (none, '(' :: r)
      | other => (none, other)
    let attrStep : Option (List Char) × List Char :=
      match contentStep.2 with
      | '[' :: r =>
        match breakAtLast ']' r with
        | some (inside, after) => (some inside, after)
        | none => (none, '[' :: r)
      | other => (none, other)
    let eventStep := scanEvents attrStep.2 none
    some { tagGroup := some s1.1
           classGroup := if cls.1 = [] then none else some cls.1
           idGroup := idStep.1
           contentGroup := contentStep.1
           attrGroup := attrStep.1
           eventGroup := eventStep.1 }

/-- A registered event (`interface Listener`): the callback, an opaque
platform function, is modelled by a numeric tag; `options` is folded into the
callback tag since the compiler only forwards both verbatim. -/
structure Listener where
  name : List Char
  type : List Char
  callbackId : Nat
deriving Repr, DecidableEq

/-- A DOM element as materialized by the builder.  `text` models the text node
appended by `appendChild(document.createTextNode(...))`; `children` holds the
element children in DOM order, and `listeners` the listeners attached by
`addEventListener` in attachment order. -/
inductive Elem where
  | mk (tag : List Char) (classes : List (List Char)) (id : Option (List Char))
      (attrs : List (List Char × List Char)) (text : Option (List Char))
      (listeners : List Listener) (children : List Elem)

def Elem.tag : Elem → List Char
  | .mk t _ _ _ _ _ _ => t

def Elem.classes : Elem → List (List Char)
  | .mk _ c _ _ _ _ _ => c

def Elem.idAttr : Elem → Option (List Char)
  | .mk _ _ i _ _ _ _ => i

def Elem.attrs : Elem → List (List Char × List Char)
  | .mk _ _ _ a _ _ _ => a

def Elem.text : Elem → Option (List Char)
  | .mk _ _ _ _ x _ _ => x

def Elem.listeners : Elem → List Listener
  | .mk _ _ _ _ _ l _ => l

def Elem.children : Elem → List Elem
  | .mk _ _ _ _ _ _ c => c

/-- `document.createElement(tagname)`. -/
def createElement (tagname : List Char) : Elem :=
  .mk tagname [] none [] none [] []

/-- Placeholder used only for out-of-bounds `getD`; every access proved about
is in bounds. -/
def defaultElem : Elem := createElement []

/-- `element.classList.add(c)`: the DOM token list ignores a token already
present. -/
def Elem.addClass : Elem → List Char → Elem
  | .mk t cs i a x l ch, c => .mk t (if c ∈ cs then cs else cs ++ [c]) i a x l ch

/-- Update of the attribute list performed by `element.setAttribute(n, v)`:
an existing attribute keeps its position and gets the new value, a new one is
appended. -/
def setAttrList : List (List Char × List Char) → List Char → List Char →
    List (List Char × List Char)
  | [], n, v => [(n, v)]
  | (a, b) :: rest, n, v =>
    if a = n then (n, v) :: rest else (a, b) :: setAttrList rest n v

def Elem.setAttr : Elem → List Char → List Char → Elem
  | .mk t cs i a x l ch, n, v => .mk t cs i (setAttrList a n v) x l ch

def Elem.setId : Elem → List Char → Elem
  | .mk t cs _ a x l ch, i => .mk t cs (some i) a x l ch

def Elem.setText : Elem → List Char → Elem
  | .mk t cs i a _ l ch, x => .mk t cs i a (some x) l ch

def Elem.addListener : Elem → Listener → Elem
  | .mk t cs i a x l ch, ev => .mk t cs i a x (l ++ [ev]) ch

/-- `parent.prepend(child)`: insert as the first child. -/
def prependChild (parent child : Elem) : Elem :=
  match parent with
  | .mk t cs i a x l ch => .mk t cs i a x l (child :: ch)

/-- JS truthiness on a possibly-absent string: `undefined` and `""` are both
falsy (the source tests every capture with `matches[n] ? ... : null`). -/
def truthy (g : Option (List Char)) : Option (List Char) :=
  match g with
  | some [] => none
  | g => g

/-- `/\d/.test(s[0])`: true exactly when the first character is a digit
(`s[0]` of an empty string is `undefined`, whose string form has no digit). -/
def headIsDigit (l : List Char) : Bool :=
  match l with
  | [] => false
  | c :: _ => c.isDigit

/-- `s.replace("#", "")`: remove the first occurrence of a character. -/
def removeFirstChar (ch : Char) : List Char → List Char
  | [] => []
  | c :: rest => if c = ch then rest else c :: removeFirstChar ch rest

/-- `HTMLBuilder._searchForEvent`: first registered listener with the given
name, else `null`. -/
def searchForEvent (E : List Listener) (name : List Char) : Option Listener :=
  match E with
  | [] => none
  | ev :: rest => if name = ev.name then some ev else searchForEvent rest name

/-- `HTMLBuilder._level`: the number of leading `>` markers. -/
def level (line : List Char) : Nat :=
  (line.takeWhile (fun c => c = '>')).length

/-- `HTMLBuilder._extractLinesFrom`: trim the template, split on newlines,
trim each line. -/
def extractLinesFrom (template : List Char) : List (List Char) :=
  (splitOnChar '\n' (jsTrim template)).map jsTrim

/-- `HTMLBuilder.indentTemplate`: prefix every extracted line with
`">".repeat(indentation)`, append `"\n"`, and trim the concatenation. -/
def indentTemplate (template : List Char) (indentation : Nat) : List Char :=
  let lines := extractLinesFrom template
  jsTrim (lines.foldl (fun acc line => acc ++ List.replicate indentation '>' ++ line ++ ['\n']) [])

/-- The all-`undefined` group record, modelling `this.REGEX.exec(line) || []`
when `exec` returns `null`. -/
def emptyGroups : RegexGroups := ⟨none, none, none, none, none, none⟩

/-- `var matches = this.REGEX.exec(line) || []`. -/
def regexGroupsOf (line : List Char) : RegexGroups :=
  (regexExec line).getD emptyGroups

/-- One iteration of the class loop: a token starting with a digit is dropped
with a diagnostic, otherwise `element.classList.add(c)`. -/
def applyClassToken (e : Elem) (c : List Char) : Elem :=
  if headIsDigit c then e else e.addClass c

/-- One iteration of the attribute loop: an item whose first (untrimmed)
character is a digit is dropped with a diagnostic; otherwise the item is
trimmed and either split on `=` (`setAttribute(split[0], split[1])`) or set
as a bare attribute with empty value. -/
def applyAttributeItem (e : Elem) (attr : List Char) : Elem :=
  if headIsDigit attr then e
  else
    let attr' := jsTrim attr
    if attr'.contains '=' then
      e.setAttr ((splitOnChar '=' attr').getD 0 []) ((splitOnChar '=' attr').getD 1 [])
    else e.setAttr attr' []

/-- One iteration of the event loop: a name starting with a digit is dropped
with a diagnostic; otherwise the registry is searched and, on a match, the
listener is attached — an unmatched name attaches nothing. -/
def applyEventName (E : List Listener) (e : Elem) (n : List Char) : Elem :=
  if headIsDigit n then e
  else
    match searchForEvent E n with
    | some ev => e.addListener ev
    | none => e

/-- The event names referenced by a matched line:
`matches[6].split(";").filter(v => v !== "")` (or `null`). -/
def eventNamesOf (m : RegexGroups) : Option (List (List Char)) :=
  (truthy m.eventGroup).map (fun s => (splitOnChar ';' s).filter (fun v => v ≠ []))

/-- The registry-independent part of `_createElementFromLine`'s element
building: create the element and apply classes, attributes, id and text
content in the source's order. -/
def materializeBase (sep : Char) (decode : List Char → List Char)
    (m : RegexGroups) (tag : List Char) : Elem :=
  let classes : Option (List (List Char)) :=
    (truthy m.classGroup).map (fun s => (splitOnChar '.' s).filter (fun v => v ≠ []))
  let idv : Option (List Char) := (truthy m.idGroup).map (removeFirstChar '#')
  let content : Option (List Char) := truthy m.contentGroup
  let attributes : Option (List (List Char)) := (truthy m.attrGroup).map (splitOnChar sep)
  let e0 := createElement tag
  let e1 :=
    match classes with
    | none => e0
    | some cs => cs.foldl applyClassToken e0
  let e2 :=
    match attributes with
    | none => e1
    | some items => items.foldl applyAttributeItem e1
  let e3 :=
    match idv with
    | some v => if v = [] then e2 else e2.setId v
    | none => e2
  match content with
  | some c => e3.setText (decode c)
  | none => e3

/-- The element-building tail of `_createElementFromLine`, run once a tag name
is present: the base stages followed by the event loop. -/
def materializeFromGroups (E : List Listener) (sep : Char)
    (decode : List Char → List Char) (m : RegexGroups) (tag : List Char) : Elem :=
  match eventNamesOf m with
  | none => materializeBase sep decode m tag
  | some names => names.foldl (applyEventName E) (materializeBase sep decode m tag)

/-- `HTMLBuilder._createElementFromLine`.  `E` is the `EVENTS` registry, `sep`
the attribute separator `SYMBOL_BETWEEN_ATTRIBUTES`, and `decode` the
platform-supplied `_decodeHTMLEntities`.  A missing tag name throws, modelled
by `Except.error` carrying the source's message. -/
def createElementFromLine (E : List Listener) (sep : Char)
    (decode : List Char → List Char) (line : List Char) : Except (List Char) Elem :=
  let m := regexGroupsOf line
  match truthy m.tagGroup with
  | none => .error ("HTMLBuilder: unable to parse a line: \"".data ++ line ++ "\"".data)
  | some tag => .ok (materializeFromGroups E sep decode m tag)

/-- The transient pending list of one block: `(materialized node, depth)`. -/
abbrev Pending := List (Elem × Nat)

/-- `HTMLBuilder._maxLevel`: running maximum of the depths, seeded with the
depth of the first entry (the source never calls it on an empty list). -/
def maxLevel (children : Pending) : Nat :=
  match children with
  | [] => 0
  | c :: _ => children.foldl (fun m e => if e.2 > m then e.2 else m) c.2

/-- The scan loop of `_getIndexOfDeepestElement`: `lastIndex` becomes the
index of each entry whose depth equals `mx`, so the final value is the highest
such index (the source initializes `lastIndex` to 1). -/
def deepestScan (mx : Nat) : Pending → Nat → Nat → Nat
  | [], _, last => last
  | c :: rest, i, last => deepestScan mx rest (i + 1) (if c.2 = mx then i else last)

/-- `HTMLBuilder._getIndexOfDeepestElement`. -/
def getIndexOfDeepestElement (children : Pending) : Nat :=
  let mx := maxLevel children
  if mx = 1 then children.length - 1
  else deepestScan mx children 0 1

/-- The scan loop of `_getIndexOfNearestParentElementOf` over the entries
strictly before `indexOfDeepest`; the JS comparison `level === deepest - 1`
over numbers is `level + 1 = deepest` over naturals. -/
def nearestScan (deepest : Nat) : Pending → Nat → Option Nat → Option Nat
  | [], _, last => last
  | c :: rest, i, last =>
    nearestScan deepest rest (i + 1) (if c.2 + 1 = deepest then some i else last)

/-- `HTMLBuilder._getIndexOfNearestParentElementOf`. -/
def getIndexOfNearestParentElementOf (indexOfDeepest : Nat) (children : Pending) :
    Option Nat :=
  let deepest := (children.getD indexOfDeepest (defaultElem, 0)).2
  nearestScan deepest (children.take indexOfDeepest) 0 none

/-- One iteration of the `while (childrenElements.length > 0)` loop of
`HTMLBuilder.generate`: prepend the deepest entry's node to its nearest
parent (or to the block root when there is none) and splice the entry out. -/
def reconstructStep (root : Elem) (children : Pending) : Elem × Pending :=
  let iD := getIndexOfDeepestElement children
  let deepElem := (children.getD iD (defaultElem, 0)).1
  match getIndexOfNearestParentElementOf iD children with
  | some p =>
    let entry := children.getD p (defaultElem, 0)
    (root, (children.set p (prependChild entry.1 deepElem, entry.2)).eraseIdx iD)
  | none => (prependChild root deepElem, children.eraseIdx iD)

/-- The reconstruction loop, indexed by the number of remaining iterations;
the loop of the source runs until the pending list is empty, which
`reconstructLoop_length` below shows takes exactly `children.length` steps. -/
def reconstructFuel : Nat → Elem × Pending → Elem × Pending
  | 0, s => s
  | n + 1, s => if s.2.isEmpty then s else reconstructFuel n (reconstructStep s.1 s.2)

/-- Tree reconstruction of one block: run the loop to completion. -/
def reconstruct (root : Elem) (children : Pending) : Elem :=
  (reconstructFuel children.length (root, children)).1

/-- The slice of lines forming the children of the block whose top-level line
sits at `startIdx`, the next top-level line sitting at `endIdx` (the inner
`for (k = ...)` loop of `generate`). -/
def childLinesSlice (lines : List (List Char)) (startIdx endIdx : Nat) :
    List (List Char) :=
  (lines.drop (startIdx + 1)).take (endIdx - (startIdx + 1))

/-- Materialize the child lines of one block in order, pairing each node with
its line's indentation level; the first parse failure aborts. -/
def parseChildren (E : List Listener) (sep : Char) (decode : List Char → List Char) :
    List (List Char) → Except (List Char) Pending
  | [] => .ok []
  | l :: rest => do
    let e ← createElementFromLine E sep decode l
    let r ← parseChildren E sep decode rest
    .ok ((e, level l) :: r)

/-- `var nextMainLevel = mainLines[i + 1] ? mainLines[i + 1][1] : lines.length`:
the boundary index of the current block. -/
def nextMainIdx (lines : List (List Char)) : List (List Char × Nat) → Nat
  | [] => lines.length
  | (_, n) :: _ => n

/-- The main `for (i = 0; i < mainLines.length; i++)` loop of `generate`.
The returned list holds the roots appended to the parent, in order; the
`Option` is the first thrown parse error (which in the source aborts the call,
leaving the previously appended roots attached). -/
def generateBlocks (E : List Listener) (sep : Char) (decode : List Char → List Char)
    (lines : List (List Char)) :
    List (List Char × Nat) → List Elem × Option (List Char)
  | [] => ([], none)
  | (line, idx) :: rest =>
    match createElementFromLine E sep decode line with
    | .error err => ([], some err)
    | .ok mainElem =>
      match parseChildren E sep decode
          (childLinesSlice lines idx (nextMainIdx lines rest)) with
      | .error err => ([], some err)
      | .ok kids =>
        let root := reconstruct mainElem kids
        let res := generateBlocks E sep decode lines rest
        (root :: res.1, res.2)

/-- The `mainLines` array of `generate`: each depth-0 line paired with its
index among all lines. -/
def mainsOf (lines : List (List Char)) : List (List Char × Nat) :=
  (lines.enum.filter (fun p => level p.2 == 0)).map (fun p => (p.2, p.1))

/-- `generate` after line extraction. -/
def generateFromLines (E : List Listener) (sep : Char) (decode : List Char → List Char)
    (lines : List (List Char)) : List Elem × Option (List Char) :=
  generateBlocks E sep decode lines (mainsOf lines)

/-- `HTMLBuilder.generate`: the pair of (roots appended to the parent, first
fatal parse error if any). -/
def generate (E : List Listener) (sep : Char) (decode : List Char → List Char)
    (template : List Char) : List Elem × Option (List Char) :=
  if (jsTrim template).length = 0 then ([], none)
  else generateFromLines E sep decode (extractLinesFrom template)

/-! ### Basic list-indexing lemmas -/

theorem getD_set_ne {α : Type} (l : List α) (a d : α) {i j : Nat} (h : i ≠ j) :
    (l.set i a).getD j d = l.getD j d := by
  induction l generalizing i j with
  | nil => simp [List.set]
  | cons x xs ih =>
    cases i with
    | zero =>
      cases j with
      | zero => exact absurd rfl h
      | succ j => simp [List.set, List.getD]
    | succ i =>
      cases j with
      | zero => simp [List.set, List.getD]
      | succ j =>
        simp only [List.set, List.getD_cons_succ]
        exact ih (fun hc => h (by omega))

theorem getD_set_self {α : Type} (l : List α) (a d : α) {i : Nat} (h : i < l.length) :
    (l.set i a).getD i d = a := by
  induction l generalizing i with
  | nil => simp at h
  | cons x xs ih =>
    cases i with
    | zero => simp [List.set, List.getD]
    | succ i =>
      simp only [List.set, List.getD_cons_succ]
      exact ih (by simpa using h)

theorem length_eraseIdx_of_lt {α : Type} (l : List α) {i : Nat} (h : i < l.length) :
    (l.eraseIdx i).length = l.length - 1 := by
  induction l generalizing i with
  | nil => simp at h
  | cons x xs ih =>
    cases i with
    | zero => simp [List.eraseIdx]
    | succ i =>
      simp only [List.eraseIdx, List.length_cons]
      rw [ih (by simpa using h)]
      have : 0 < xs.length := by simp at h; omega
      omega

theorem getD_eraseIdx_lt {α : Type} (l : List α) (d : α) {i j : Nat} (h : j < i) :
    (l.eraseIdx i).getD j d = l.getD j d := by
  induction l generalizing i j with
  | nil => simp [List.eraseIdx]
  | cons x xs ih =>
    cases i with
    | zero => omega
    | succ i =>
      cases j with
      | zero => simp [List.eraseIdx, List.getD]
      | succ j =>
        simp only [List.eraseIdx, List.getD_cons_succ]
        exact ih (by omega)

theorem getD_eraseIdx_ge {α : Type} (l : List α) (d : α) {i j : Nat}
    (hi : i < l.length) (h : i ≤ j) :
    (l.eraseIdx i).getD j d = l.getD (j + 1) d := by
  induction l generalizing i j with
  | nil => simp at hi
  | cons x xs ih =>
    cases i with
    | zero => simp [List.eraseIdx, List.getD]
    | succ i =>
      cases j with
      | zero => omega
      | succ j =>
        simp only [List.eraseIdx, List.getD_cons_succ]
        exact ih (by simpa using hi) (by omega)

theorem getD_mem {α : Type} (l : List α) (d : α) {i : Nat} (h : i < l.length) :
    l.getD i d ∈ l := by
  induction l generalizing i with
  | nil => simp at h
  | cons x xs ih =>
    cases i with
    | zero => simp [List.getD]
    | succ i =>
      simp only [List.getD_cons_succ]
      exact List.mem_cons_of_mem _ (ih (by simpa using h))

/-! ### The maximum-depth computation -/

theorem foldl_depthMax_eq (l : Pending) (a : Nat) :
    l.foldl (fun m e => if e.2 > m then e.2 else m) a =
      l.foldl (fun m e => max m e.2) a := by
  have : (fun (m : Nat) (e : Elem × Nat) => if e.2 > m then e.2 else m) =
      (fun m e => max m e.2) := by
    funext m e
    rcases Nat.le_total m e.2 with h | h
    · rw [max_eq_right h]
      split <;> omega
    · rw [max_eq_left h]
      split <;> omega
  rw [this]

theorem le_foldl_max (l : Pending) (a : Nat) :
    a ≤ l.foldl (fun m e => max m e.2) a := by
  induction l generalizing a with
  | nil => simp
  | cons c rest ih =>
    simp only [List.foldl_cons]
    exact le_trans (le_max_left a c.2) (ih _)

theorem mem_le_foldl_max (l : Pending) (a : Nat) {e : Elem × Nat} (h : e ∈ l) :
    e.2 ≤ l.foldl (fun m e => max m e.2) a := by
  induction l generalizing a with
  | nil => simp at h
  | cons c rest ih =>
    simp only [List.foldl_cons]
    rcases List.mem_cons.mp h with rfl | h'
    · exact le_trans (le_max_right a e.2) (le_foldl_max _ _)
    · exact ih _ h'

theorem foldl_max_cases (l : Pending) (a : Nat) :
    l.foldl (fun m e => max m e.2) a = a ∨
      ∃ e ∈ l, l.foldl (fun m e => max m e.2) a = e.2 := by
  induction l generalizing a with
  | nil => exact Or.inl rfl
  | cons c rest ih =>
    simp only [List.foldl_cons]
    rcases ih (max a c.2) with h | ⟨e, he, hh⟩
    · rcases max_choice a c.2 with hm | hm
      · exact Or.inl (h.trans hm)
      · exact Or.inr ⟨c, List.mem_cons_self .., h.trans hm⟩
    · exact Or.inr ⟨e, List.mem_cons_of_mem _ he, hh⟩

/-- Every pending depth is bounded by `maxLevel`. -/
theorem depth_le_maxLevel {children : Pending} {e : Elem × Nat} (h : e ∈ children) :
    e.2 ≤ maxLevel children := by
  cases children with
  | nil => simp at h
  | cons c rest =>
    simp only [maxLevel, foldl_depthMax_eq]
    exact mem_le_foldl_max _ _ h

/-- `maxLevel` of a non-empty pending list is attained by some entry. -/
theorem maxLevel_attained {children : Pending} (h : children ≠ []) :
    ∃ e ∈ children, e.2 = maxLevel children := by
  cases children with
  | nil => exact absurd rfl h
  | cons c rest =>
    simp only [maxLevel, foldl_depthMax_eq]
    rcases foldl_max_cases (c :: rest) c.2 with hc | ⟨e, he, hh⟩
    · exact ⟨c, List.mem_cons_self .., hc.symm⟩
    · exact ⟨e, he, hh.symm⟩

/-! ### The deepest-entry scan -/

theorem deepestScan_of_not_mem (mx : Nat) (l : Pending) (i last : Nat)
    (h : ∀ e ∈ l, e.2 ≠ mx) : deepestScan mx l i last = last := by
  induction l generalizing i last with
  | nil => rfl
  | cons c rest ih =>
    simp only [deepestScan]
    rw [if_neg (h c (List.mem_cons_self ..))]
    exact ih _ _ (fun e he => h e (List.mem_cons_of_mem _ he))

theorem deepestScan_spec (mx : Nat) (l : Pending) (i last : Nat)
    (h : ∃ e ∈ l, e.2 = mx) :
    ∃ j, j < l.length ∧ (l.getD j (defaultElem, 0)).2 = mx ∧
      deepestScan mx l i last = i + j ∧
      ∀ k, j < k → k < l.length → (l.getD k (defaultElem, 0)).2 ≠ mx := by
  induction l generalizing i last with
  | nil => simp at h
  | cons c rest ih =>
    by_cases hr : ∃ e ∈ rest, e.2 = mx
    · obtain ⟨j', hj1, hj2, hj3, hj4⟩ := ih (i + 1) (if c.2 = mx then i else last) hr
      refine ⟨j' + 1, by simpa using hj1, by simpa using hj2, ?_, ?_⟩
      · simp only [deepestScan]
        rw [hj3]
        omega
      · intro k hk1 hk2
        cases k with
        | zero => omega
        | succ k =>
          simp only [List.getD_cons_succ]
          exact hj4 k (by omega) (by simpa using hk2)
    · have hc : c.2 = mx := by
        obtain ⟨e, he, hemx⟩ := h
        rcases List.mem_cons.mp he with rfl | h'
        · exact hemx
        · exact absurd ⟨e, h', hemx⟩ hr
      refine ⟨0, by simp, by simpa using hc, ?_, ?_⟩
      · simp only [deepestScan, if_pos hc]
        rw [deepestScan_of_not_mem mx rest (i + 1) i
          (fun e he hemx => hr ⟨e, he, hemx⟩)]
        omega
      · intro k hk1 hk2
        cases k with
        | zero => omega
        | succ k =>
          simp only [List.getD_cons_succ]
          intro hemx
          exact hr ⟨_, getD_mem rest (defaultElem, 0) (by simpa using hk2), hemx⟩

/-! ### The nearest-parent scan -/

theorem nearestScan_of_not_mem (d : Nat) (l : Pending) (i : Nat) (last : Option Nat)
    (h : ∀ e ∈ l, e.2 + 1 ≠ d) : nearestScan d l i last = last := by
  induction l generalizing i last with
  | nil => rfl
  | cons c rest ih =>
    simp only [nearestScan]
    rw [if_neg (h c (List.mem_cons_self ..))]
    exact ih _ _ (fun e he => h e (List.mem_cons_of_mem _ he))

theorem nearestScan_spec (d : Nat) (l : Pending) (i : Nat) (last : Option Nat)
    (h : ∃ e ∈ l, e.2 + 1 = d) :
    ∃ j, j < l.length ∧ (l.getD j (defaultElem, 0)).2 + 1 = d ∧
      nearestScan d l i last = some (i + j) ∧
      ∀ k, j < k → k < l.length → (l.getD k (defaultElem, 0)).2 + 1 ≠ d := by
  induction l generalizing i last with
  | nil => simp at h
  | cons c rest ih =>
    by_cases hr : ∃ e ∈ rest, e.2 + 1 = d
    · obtain ⟨j', hj1, hj2, hj3, hj4⟩ := ih (i + 1) (if c.2 + 1 = d then some i else last) hr
      refine ⟨j' + 1, by simpa using hj1, by simpa using hj2, ?_, ?_⟩
      · simp only [nearestScan]
        rw [hj3]
        congr 1
        omega
      · intro k hk1 hk2
        cases k with
        | zero => omega
        | succ k =>
          simp only [List.getD_cons_succ]
          exact hj4 k (by omega) (by simpa using hk2)
    · have hc : c.2 + 1 = d := by
        obtain ⟨e, he, hed⟩ := h
        rcases List.mem_cons.mp he with rfl | h'
        · exact hed
        · exact absurd ⟨e, h', hed⟩ hr
      refine ⟨0, by simp, by simpa using hc, ?_, ?_⟩
      · simp only [nearestScan, if_pos hc]
        rw [nearestScan_of_not_mem d rest (i + 1) (some i)
          (fun e he hed => hr ⟨e, he, hed⟩)]
        simp
      · intro k hk1 hk2
        cases k with
        | zero => omega
        | succ k =>
          simp only [List.getD_cons_succ]
          intro hed
          exact hr ⟨_, getD_mem rest (defaultElem, 0) (by simpa using hk2), hed⟩

theorem getD_take {α : Type} (l : List α) (d : α) {i j : Nat} (h : j < i) :
    (l.take i).getD j d = l.getD j d := by
  induction l generalizing i j with
  | nil => simp
  | cons x xs ih =>
    cases i with
    | zero => omega
    | succ i =>
      cases j with
      | zero => simp [List.getD]
      | succ j =>
        simp only [List.take, List.getD_cons_succ]
        exact ih (by omega)

theorem mem_getD {α : Type} {l : List α} {e : α} (d : α) (h : e ∈ l) :
    ∃ j, j < l.length ∧ l.getD j d = e := by
  induction l with
  | nil => simp at h
  | cons x xs ih =>
    rcases List.mem_cons.mp h with rfl | h'
    · exact ⟨0, by simp, rfl⟩
    · obtain ⟨j, hj, hgd⟩ := ih h'
      exact ⟨j + 1, by simpa using hj, by simpa using hgd⟩

theorem prependChild_children (parent child : Elem) :
    (prependChild parent child).children = child :: parent.children := by
  cases parent
  rfl

/-- The index chosen by `_getIndexOfDeepestElement` is always a valid index of
a non-empty pending list. -/
theorem deepestIndex_lt_length {children : Pending} (hne : children ≠ []) :
    getIndexOfDeepestElement children < children.length := by
  have hlen : 0 < children.length := List.length_pos.mpr hne
  by_cases hmx : maxLevel children = 1
  · simp only [getIndexOfDeepestElement, hmx, if_pos]
    omega
  · simp only [getIndexOfDeepestElement, hmx, if_neg, if_false]
    obtain ⟨j, hj, _, hres, _⟩ :=
      deepestScan_spec (maxLevel children) children 0 1 (maxLevel_attained hne)
    simpa [hres] using hj

/-- Each loop iteration removes exactly one pending entry. -/
theorem reconstructStep_length (root : Elem) {children : Pending} (hne : children ≠ []) :
    ((reconstructStep root children).2).length = children.length - 1 := by
  have hiD := deepestIndex_lt_length hne
  simp only [reconstructStep]
  cases hpar : getIndexOfNearestParentElementOf (getIndexOfDeepestElement children) children with
  | none =>
    simp only []
    exact length_eraseIdx_of_lt _ hiD
  | some p =>
    simp only []
    rw [length_eraseIdx_of_lt _ (by simpa using hiD), List.length_set]

/-- After `k ≤ n` iterations exactly `k` entries have been removed. -/
theorem reconstructFuel_length :
    ∀ (k : Nat) (s : Elem × Pending), k ≤ s.2.length →
      ((reconstructFuel k s).2).length = s.2.length - k := by
  intro k
  induction k with
  | zero => intro s _; rfl
  | succ k ih =>
    intro s hk
    have hne : s.2 ≠ [] := by
      intro h
      rw [h] at hk
      simp at hk
    have hemp : s.2.isEmpty = false := by
      simpa [List.isEmpty_iff] using hne
    simp only [reconstructFuel, hemp, if_false, Bool.false_eq_true]
    rw [ih _ (by rw [reconstructStep_length s.1 hne]; omega),
      reconstructStep_length s.1 hne]
    omega

/-- C1: for a non-empty pending list of one block (all depths ≥ 1), the
selected entry holds the maximum depth; when the maximum is not 1 the entry
with the highest index among those attaining it is selected, and when the
maximum is 1 the last entry of the whole list is selected. -/
theorem deepest_selection_spec (children : Pending) (hne : children ≠ [])
    (hpos : ∀ e ∈ children, 1 ≤ e.2) :
    getIndexOfDeepestElement children < children.length ∧
    (children.getD (getIndexOfDeepestElement children) (defaultElem, 0)).2 =
      maxLevel children ∧
    (maxLevel children = 1 →
      getIndexOfDeepestElement children = children.length - 1) ∧
    (maxLevel children ≠ 1 →
      ∀ j, getIndexOfDeepestElement children < j → j < children.length →
        (children.getD j (defaultElem, 0)).2 ≠ maxLevel children) := by
  have hlen : 0 < children.length := List.length_pos.mpr hne
  by_cases hmx : maxLevel children = 1
  · have hsel : getIndexOfDeepestElement children = children.length - 1 := by
      simp only [getIndexOfDeepestElement, hmx, if_pos]
    refine ⟨by omega, ?_, fun _ => hsel, fun h => absurd hmx h⟩
    rw [hsel]
    have hmem := getD_mem children (defaultElem, 0) (i := children.length - 1) (by omega)
    have h1 := hpos _ hmem
    have h2 := depth_le_maxLevel hmem
    omega
  · have hsel : getIndexOfDeepestElement children =
        deepestScan (maxLevel children) children 0 1 := by
      simp only [getIndexOfDeepestElement, hmx, if_neg, if_false]
    obtain ⟨j, hj, hdj, hres, htail⟩ :=
      deepestScan_spec (maxLevel children) children 0 1 (maxLevel_attained hne)
    rw [Nat.zero_add] at hres
    refine ⟨?_, ?_, fun h => absurd h hmx, fun _ => ?_⟩
    · rw [hsel, hres]; exact hj
    · rw [hsel, hres]; exact hdj
    · intro q hq1 hq2
      rw [hsel, hres] at hq1
      exact htail q hq1 hq2

/-- Witness for `deepest_selection_spec` at a concrete pending list. -/
theorem deepest_selection_spec_witness :
    getIndexOfDeepestElement [(defaultElem, 1), (defaultElem, 2), (defaultElem, 2)] <
      ([(defaultElem, 1), (defaultElem, 2), (defaultElem, 2)] : Pending).length ∧
    (([(defaultElem, 1), (defaultElem, 2), (defaultElem, 2)] : Pending).getD
        (getIndexOfDeepestElement [(defaultElem, 1), (defaultElem, 2), (defaultElem, 2)])
        (defaultElem, 0)).2 =
      maxLevel [(defaultElem, 1), (defaultElem, 2), (defaultElem, 2)] ∧
    (maxLevel [(defaultElem, 1), (defaultElem, 2), (defaultElem, 2)] = 1 →
      getIndexOfDeepestElement [(defaultElem, 1), (defaultElem, 2), (defaultElem, 2)] =
        ([(defaultElem, 1), (defaultElem, 2), (defaultElem, 2)] : Pending).length - 1) ∧
    (maxLevel [(defaultElem, 1), (defaultElem, 2), (defaultElem, 2)] ≠ 1 →
      ∀ j, getIndexOfDeepestElement [(defaultElem, 1), (defaultElem, 2), (defaultElem, 2)] < j →
        j < ([(defaultElem, 1), (defaultElem, 2), (defaultElem, 2)] : Pending).length →
        (([(defaultElem, 1), (defaultElem, 2), (defaultElem, 2)] : Pending).getD j
          (defaultElem, 0)).2 ≠
          maxLevel [(defaultElem, 1), (defaultElem, 2), (defaultElem, 2)]) :=
  deepest_selection_spec [(defaultElem, 1), (defaultElem, 2), (defaultElem, 2)]
    (by simp)
    (by
      intro e he
      rcases List.mem_cons.mp he with rfl | he
      · exact Nat.le_refl 1
      rcases List.mem_cons.mp he with rfl | he
      · omega
      rcases List.mem_cons.mp he with rfl | he
      · omega
      · simp at he)

/-- C9: the per-block reconstruction loop removes exactly one entry per
iteration (the selected deepest index is always in bounds), hence the loop
empties the pending list after exactly `children.length` iterations. -/
theorem reconstruction_terminates (root : Elem) (children : Pending) :
    (∀ k, k ≤ children.length →
      ((reconstructFuel k (root, children)).2).length = children.length - k) ∧
    (reconstructFuel children.length (root, children)).2 = [] ∧
    (children ≠ [] → getIndexOfDeepestElement children < children.length) := by
  refine ⟨fun k hk => reconstructFuel_length k (root, children) hk, ?_,
    fun hne => deepestIndex_lt_length hne⟩
  have := reconstructFuel_length children.length (root, children) (Nat.le_refl _)
  rw [Nat.sub_self] at this
  exact List.length_eq_zero.mp this

/-- Witness for `reconstruction_terminates` at a concrete pending list. -/
theorem reconstruction_terminates_witness :
    ((reconstructFuel 1 (defaultElem, [(defaultElem, 1), (defaultElem, 2)])).2).length =
      ([(defaultElem, 1), (defaultElem, 2)] : Pending).length - 1 ∧
    getIndexOfDeepestElement [(defaultElem, 1), (defaultElem, 2)] <
      ([(defaultElem, 1), (defaultElem, 2)] : Pending).length :=
  ⟨(reconstruction_terminates defaultElem [(defaultElem, 1), (defaultElem, 2)]).1 1
      (by simp),
    (reconstruction_terminates defaultElem [(defaultElem, 1), (defaultElem, 2)]).2.2
      (by simp)⟩

/-- The nearest-parent lookup returns the last index strictly before
`indexOfDeepest` whose depth is one less than the deepest entry's depth. -/
theorem nearestParent_spec (children : Pending) {iD : Nat}
    (hiD : iD < children.length) :
    ((∃ j, j < iD ∧ (children.getD j (defaultElem, 0)).2 + 1 =
        (children.getD iD (defaultElem, 0)).2) →
      ∃ p, getIndexOfNearestParentElementOf iD children = some p ∧
        p < iD ∧
        (children.getD p (defaultElem, 0)).2 + 1 = (children.getD iD (defaultElem, 0)).2 ∧
        ∀ q, p < q → q < iD → (children.getD q (defaultElem, 0)).2 + 1 ≠
          (children.getD iD (defaultElem, 0)).2) ∧
    ((∀ j, j < iD → (children.getD j (defaultElem, 0)).2 + 1 ≠
        (children.getD iD (defaultElem, 0)).2) →
      getIndexOfNearestParentElementOf iD children = none) := by
  have htklen : (children.take iD).length = iD := by
    rw [List.length_take]
    omega
  constructor
  · rintro ⟨j, hj, hdj⟩
    have hex : ∃ e ∈ children.take iD, e.2 + 1 = (children.getD iD (defaultElem, 0)).2 := by
      refine ⟨(children.take iD).getD j (defaultElem, 0), getD_mem _ _ (by omega), ?_⟩
      rw [getD_take children (defaultElem, 0) hj]
      exact hdj
    obtain ⟨p, hp1, hp2, hp3, hp4⟩ :=
      nearestScan_spec ((children.getD iD (defaultElem, 0)).2) (children.take iD) 0 none hex
    rw [htklen] at hp1
    rw [getD_take children (defaultElem, 0) hp1] at hp2
    refine ⟨p, ?_, hp1, hp2, ?_⟩
    · simp only [getIndexOfNearestParentElementOf]
      rw [hp3]
      simp
    · intro q hq1 hq2
      have := hp4 q hq1 (by omega)
      rwa [getD_take children (defaultElem, 0) hq2] at this
  · intro hnone
    simp only [getIndexOfNearestParentElementOf]
    apply nearestScan_of_not_mem
    intro e he
    obtain ⟨j, hjlt, hj⟩ := mem_getD (defaultElem, 0) he
    rw [htklen] at hjlt
    rw [getD_take children (defaultElem, 0) hjlt] at hj
    rw [← hj]
    exact hnone j hjlt

/-- C2: each reconstruction step attaches the chosen deepest entry's node as
the first child of the last earlier entry whose depth is the chosen depth
minus one (or of the block root when no such entry exists) and removes the
chosen entry from the pending list; all other pending entries are unchanged
(those after the removed index shift down by one). -/
theorem deepest_attachment_spec (root : Elem) (children : Pending)
    (hne : children ≠ []) :
    ((∃ j, j < getIndexOfDeepestElement children ∧
        (children.getD j (defaultElem, 0)).2 + 1 =
          (children.getD (getIndexOfDeepestElement children) (defaultElem, 0)).2) →
      ∃ p, getIndexOfNearestParentElementOf (getIndexOfDeepestElement children) children
          = some p ∧
        p < getIndexOfDeepestElement children ∧
        (children.getD p (defaultElem, 0)).2 + 1 =
          (children.getD (getIndexOfDeepestElement children) (defaultElem, 0)).2 ∧
        (∀ q, p < q → q < getIndexOfDeepestElement children →
          (children.getD q (defaultElem, 0)).2 + 1 ≠
            (children.getD (getIndexOfDeepestElement children) (defaultElem, 0)).2) ∧
        (reconstructStep root children).1 = root ∧
        ((reconstructStep root children).2.getD p (defaultElem, 0)).1.children =
          (children.getD (getIndexOfDeepestElement children) (defaultElem, 0)).1 ::
            (children.getD p (defaultElem, 0)).1.children ∧
        ((reconstructStep root children).2.getD p (defaultElem, 0)).2 =
          (children.getD p (defaultElem, 0)).2 ∧
        (∀ q, q < getIndexOfDeepestElement children → q ≠ p →
          (reconstructStep root children).2.getD q (defaultElem, 0) =
            children.getD q (defaultElem, 0)) ∧
        (∀ q, getIndexOfDeepestElement children ≤ q →
          (reconstructStep root children).2.getD q (defaultElem, 0) =
            children.getD (q + 1) (defaultElem, 0))) ∧
    ((∀ j, j < getIndexOfDeepestElement children →
        (children.getD j (defaultElem, 0)).2 + 1 ≠
          (children.getD (getIndexOfDeepestElement children) (defaultElem, 0)).2) →
      getIndexOfNearestParentElementOf (getIndexOfDeepestElement children) children
        = none ∧
      (reconstructStep root children).1.children =
        (children.getD (getIndexOfDeepestElement children) (defaultElem, 0)).1 ::
          root.children ∧
      (∀ q, q < getIndexOfDeepestElement children →
        (reconstructStep root children).2.getD q (defaultElem, 0) =
          children.getD q (defaultElem, 0)) ∧
      (∀ q, getIndexOfDeepestElement children ≤ q →
        (reconstructStep root children).2.getD q (defaultElem, 0) =
          children.getD (q + 1) (defaultElem, 0))) := by
  have hiD := deepestIndex_lt_length hne
  obtain ⟨hpar_some, hpar_none⟩ := nearestParent_spec children hiD
  constructor
  · intro hex
    obtain ⟨p, hp, hp1, hp2, hp3⟩ := hpar_some hex
    have hstep : reconstructStep root children =
        (root, (children.set p
          (prependChild (children.getD p (defaultElem, 0)).1
            (children.getD (getIndexOfDeepestElement children) (defaultElem, 0)).1,
          (children.getD p (defaultElem, 0)).2)).eraseIdx
            (getIndexOfDeepestElement children)) := by
      simp only [reconstructStep, hp]
    refine ⟨p, hp, hp1, hp2, hp3, by rw [hstep], ?_, ?_, ?_, ?_⟩
    · rw [hstep]
      simp only []
      rw [getD_eraseIdx_lt _ _ hp1, getD_set_self _ _ _ (by omega)]
      simp only []
      rw [prependChild_children]
    · rw [hstep]
      simp only []
      rw [getD_eraseIdx_lt _ _ hp1, getD_set_self _ _ _ (by omega)]
    · intro q hq hqp
      rw [hstep]
      simp only []
      rw [getD_eraseIdx_lt _ _ hq, getD_set_ne _ _ _ (fun h => hqp h.symm)]
    · intro q hq
      rw [hstep]
      simp only []
      rw [getD_eraseIdx_ge _ _ (by simpa using hiD) hq,
        getD_set_ne _ _ _ (by omega)]
  · intro hno
    have hp := hpar_none hno
    have hstep : reconstructStep root children =
        (prependChild root
          (children.getD (getIndexOfDeepestElement children) (defaultElem, 0)).1,
        children.eraseIdx (getIndexOfDeepestElement children)) := by
      simp only [reconstructStep, hp]
    refine ⟨hp, ?_, ?_, ?_⟩
    · rw [hstep]
      simp only []
      rw [prependChild_children]
    · intro q hq
      rw [hstep]
      simp only []
      rw [getD_eraseIdx_lt _ _ hq]
    · intro q hq
      rw [hstep]
      simp only []
      rw [getD_eraseIdx_ge _ _ hiD hq]

/-- Witness for `deepest_attachment_spec`: in `[(A,1),(B,2)]` the deepest
entry `B` attaches under `A`. -/
theorem deepest_attachment_spec_witness :
    ∃ p, getIndexOfNearestParentElementOf
        (getIndexOfDeepestElement [(defaultElem, 1), (defaultElem, 2)])
        [(defaultElem, 1), (defaultElem, 2)] = some p ∧
      p < getIndexOfDeepestElement [(defaultElem, 1), (defaultElem, 2)] ∧
      (([(defaultElem, 1), (defaultElem, 2)] : Pending).getD p (defaultElem, 0)).2 + 1 =
        (([(defaultElem, 1), (defaultElem, 2)] : Pending).getD
          (getIndexOfDeepestElement [(defaultElem, 1), (defaultElem, 2)])
          (defaultElem, 0)).2 ∧
      (∀ q, p < q → q < getIndexOfDeepestElement [(defaultElem, 1), (defaultElem, 2)] →
        (([(defaultElem, 1), (defaultElem, 2)] : Pending).getD q (defaultElem, 0)).2 + 1 ≠
          (([(defaultElem, 1), (defaultElem, 2)] : Pending).getD
            (getIndexOfDeepestElement [(defaultElem, 1), (defaultElem, 2)])
            (defaultElem, 0)).2) ∧
      (reconstructStep defaultElem [(defaultElem, 1), (defaultElem, 2)]).1 = defaultElem ∧
      ((reconstructStep defaultElem [(defaultElem, 1), (defaultElem, 2)]).2.getD p
          (defaultElem, 0)).1.children =
        (([(defaultElem, 1), (defaultElem, 2)] : Pending).getD
          (getIndexOfDeepestElement [(defaultElem, 1), (defaultElem, 2)])
          (defaultElem, 0)).1 ::
          (([(defaultElem, 1), (defaultElem, 2)] : Pending).getD p
            (defaultElem, 0)).1.children ∧
      ((reconstructStep defaultElem [(defaultElem, 1), (defaultElem, 2)]).2.getD p
          (defaultElem, 0)).2 =
        (([(defaultElem, 1), (defaultElem, 2)] : Pending).getD p (defaultElem, 0)).2 ∧
      (∀ q, q < getIndexOfDeepestElement [(defaultElem, 1), (defaultElem, 2)] → q ≠ p →
        (reconstructStep defaultElem [(defaultElem, 1), (defaultElem, 2)]).2.getD q
            (defaultElem, 0) =
          ([(defaultElem, 1), (defaultElem, 2)] : Pending).getD q (defaultElem, 0)) ∧
      (∀ q, getIndexOfDeepestElement [(defaultElem, 1), (defaultElem, 2)] ≤ q →
        (reconstructStep defaultElem [(defaultElem, 1), (defaultElem, 2)]).2.getD q
            (defaultElem, 0) =
          ([(defaultElem, 1), (defaultElem, 2)] : Pending).getD (q + 1) (defaultElem, 0)) :=
  (deepest_attachment_spec defaultElem [(defaultElem, 1), (defaultElem, 2)]
      (by simp)).1
    ⟨0, by
      constructor
      · show 0 < getIndexOfDeepestElement [(defaultElem, 1), (defaultElem, 2)]
        decide
      · decide⟩

/-! ### Splitting lemmas for attribute items -/

theorem splitOnChar_ne_nil (sep : Char) (l : List Char) : splitOnChar sep l ≠ [] := by
  cases l with
  | nil => simp [splitOnChar]
  | cons c rest =>
    simp only [splitOnChar]
    by_cases hc : c = sep
    · simp [hc]
    · simp only [hc, if_false]
      cases splitOnChar sep rest with
      | nil => simp
      | cons h t => simp

theorem splitOnChar_getD_zero (sep : Char) (l : List Char) :
    (splitOnChar sep l).getD 0 [] = l.takeWhile (fun c => !(c = sep)) := by
  induction l with
  | nil => rfl
  | cons c rest ih =>
    simp only [splitOnChar]
    by_cases hc : c = sep
    · subst hc
      simp [List.takeWhile_cons]
    · simp only [hc, if_false]
      cases hr : splitOnChar sep rest with
      | nil => exact absurd hr (splitOnChar_ne_nil sep rest)
      | cons h t =>
        have hh : h = (splitOnChar sep rest).getD 0 [] := by rw [hr]; rfl
        simp only [List.getD_cons_zero, List.takeWhile_cons, hc, decide_False,
          Bool.not_false, if_true]
        rw [hh, ih]

theorem splitOnChar_getD_one (sep : Char) (l : List Char) (h : sep ∈ l) :
    (splitOnChar sep l).getD 1 [] =
      ((l.dropWhile (fun c => !(c = sep))).tail).takeWhile (fun c => !(c = sep)) := by
  induction l with
  | nil => simp at h
  | cons c rest ih =>
    simp only [splitOnChar]
    by_cases hc : c = sep
    · rw [if_pos hc, List.getD_cons_succ, splitOnChar_getD_zero]
      simp [List.dropWhile_cons, hc]
    · have hrest : sep ∈ rest := by
        rcases List.mem_cons.mp h with h' | h'
        · exact absurd h'.symm hc
        · exact h'
      simp only [hc, if_false]
      cases hr : splitOnChar sep rest with
      | nil => exact absurd hr (splitOnChar_ne_nil sep rest)
      | cons hh t =>
        have ht : t.getD 0 [] = (splitOnChar sep rest).getD 1 [] := by rw [hr]; rfl
        simp only [List.getD_cons_succ, List.dropWhile_cons, hc, decide_False,
          Bool.not_false, if_true]
        rw [ht, ih hrest]

/-- C4 (amended): an attribute item (not starting with a digit) containing `=`
is split on `=`; the attribute name is the text before the first `=` and the
attribute value is the text between the first and the second `=` (the rest
after a second `=` is discarded); an item without `=` becomes a presence
attribute with empty value. -/
theorem attribute_item_split (e : Elem) (item : List Char)
    (hnd : headIsDigit item = false) :
    ((jsTrim item).contains '=' = true →
      applyAttributeItem e item =
        e.setAttr ((jsTrim item).takeWhile (fun c => !(c = '=')))
          ((((jsTrim item).dropWhile (fun c => !(c = '='))).tail).takeWhile
            (fun c => !(c = '=')))) ∧
    ((jsTrim item).contains '=' = false →
      applyAttributeItem e item = e.setAttr (jsTrim item) []) := by
  constructor
  · intro hc
    have hmem : '=' ∈ jsTrim item := by
      simpa [List.contains] using hc
    simp only [applyAttributeItem, hnd, Bool.false_eq_true, if_false, hc, if_true]
    rw [splitOnChar_getD_zero, splitOnChar_getD_one '=' (jsTrim item) hmem]
  · intro hc
    simp only [applyAttributeItem, hnd, Bool.false_eq_true, if_false, hc]

/-- Witness for `attribute_item_split` at the item `data-x=1=2`. -/
theorem attribute_item_split_witness :
    ((jsTrim "data-x=1=2".data).contains '=' = true →
      applyAttributeItem defaultElem "data-x=1=2".data =
        defaultElem.setAttr ((jsTrim "data-x=1=2".data).takeWhile (fun c => !(c = '=')))
          ((((jsTrim "data-x=1=2".data).dropWhile (fun c => !(c = '='))).tail).takeWhile
            (fun c => !(c = '=')))) ∧
    ((jsTrim "data-x=1=2".data).contains '=' = false →
      applyAttributeItem defaultElem "data-x=1=2".data =
        defaultElem.setAttr (jsTrim "data-x=1=2".data) []) :=
  attribute_item_split defaultElem "data-x=1=2".data (by decide)

/-- C4 counterexample: for the bracketed item `data-x=1=2` the materialized
attribute value is `1`, the text between the first and second `=`, not the
entire remaining text `1=2` after the first `=`. -/
theorem attribute_value_not_entire_remainder :
    ((createElementFromLine [] ';' (fun c => c) "div[data-x=1=2]".data).toOption).map
        Elem.attrs = some [("data-x".data, "1".data)] ∧
    ("1".data : List Char) ≠ "1=2".data := by
  constructor
  · decide
  · decide

/-! ### Event resolution -/

theorem searchForEvent_some_name {E : List Listener} {n : List Char} {ev : Listener}
    (h : searchForEvent E n = some ev) : ev.name = n := by
  induction E with
  | nil => simp [searchForEvent] at h
  | cons e' rest ih =>
    simp only [searchForEvent] at h
    by_cases hn : n = e'.name
    · rw [if_pos hn] at h
      cases h
      exact hn.symm
    · rw [if_neg hn] at h
      exact ih h

theorem addListener_fields (e : Elem) (ev : Listener) :
    (e.addListener ev).tag = e.tag ∧ (e.addListener ev).classes = e.classes ∧
    (e.addListener ev).idAttr = e.idAttr ∧ (e.addListener ev).attrs = e.attrs ∧
    (e.addListener ev).text = e.text ∧
    (e.addListener ev).listeners = e.listeners ++ [ev] := by
  cases e
  exact ⟨rfl, rfl, rfl, rfl, rfl, rfl⟩

theorem applyEventName_fields (E : List Listener) (e : Elem) (n : List Char) :
    (applyEventName E e n).tag = e.tag ∧ (applyEventName E e n).classes = e.classes ∧
    (applyEventName E e n).idAttr = e.idAttr ∧ (applyEventName E e n).attrs = e.attrs ∧
    (applyEventName E e n).text = e.text := by
  simp only [applyEventName]
  by_cases hd : headIsDigit n
  · simp [hd]
  · simp only [hd, Bool.false_eq_true, if_false]
    cases hs : searchForEvent E n with
    | none => exact ⟨rfl, rfl, rfl, rfl, rfl⟩
    | some ev =>
      obtain ⟨h1, h2, h3, h4, h5, _⟩ := addListener_fields e ev
      exact ⟨h1, h2, h3, h4, h5⟩

theorem foldl_applyEventName_fields (E : List Listener) (names : List (List Char))
    (e : Elem) :
    (names.foldl (applyEventName E) e).tag = e.tag ∧
    (names.foldl (applyEventName E) e).classes = e.classes ∧
    (names.foldl (applyEventName E) e).idAttr = e.idAttr ∧
    (names.foldl (applyEventName E) e).attrs = e.attrs ∧
    (names.foldl (applyEventName E) e).text = e.text := by
  induction names generalizing e with
  | nil => exact ⟨rfl, rfl, rfl, rfl, rfl⟩
  | cons n rest ih =>
    simp only [List.foldl_cons]
    obtain ⟨i1, i2, i3, i4, i5⟩ := ih (applyEventName E e n)
    obtain ⟨a1, a2, a3, a4, a5⟩ := applyEventName_fields E e n
    exact ⟨i1.trans a1, i2.trans a2, i3.trans a3, i4.trans a4, i5.trans a5⟩

theorem foldl_applyEventName_listeners (E : List Listener) (names : List (List Char))
    (e : Elem) {L : Listener}
    (h : L ∈ (names.foldl (applyEventName E) e).listeners) :
    L ∈ e.listeners ∨ searchForEvent E L.name = some L := by
  induction names generalizing e with
  | nil => exact Or.inl h
  | cons n rest ih =>
    simp only [List.foldl_cons] at h
    rcases ih (applyEventName E e n) h with hmem | hsearch
    · simp only [applyEventName] at hmem
      by_cases hd : headIsDigit n
      · simp only [hd, if_true] at hmem
        exact Or.inl hmem
      · simp only [hd, Bool.false_eq_true, if_false] at hmem
        cases hs : searchForEvent E n with
        | none =>
          rw [hs] at hmem
          exact Or.inl hmem
        | some ev =>
          rw [hs] at hmem
          rw [(addListener_fields e ev).2.2.2.2.2] at hmem
          rcases List.mem_append.mp hmem with h' | h'
          · exact Or.inl h'
          · have hL : L = ev := by simpa using h'
            subst hL
            right
            rw [searchForEvent_some_name hs]
            exact hs
    · exact Or.inr hsearch

theorem applyEventName_empty (e : Elem) (n : List Char) :
    applyEventName [] e n = e := by
  simp only [applyEventName, searchForEvent]
  by_cases hd : headIsDigit n <;> simp [hd]

theorem foldl_applyEventName_empty (names : List (List Char)) (e : Elem) :
    names.foldl (applyEventName []) e = e := by
  induction names generalizing e with
  | nil => rfl
  | cons n rest ih =>
    simp only [List.foldl_cons, applyEventName_empty]
    exact ih e

theorem materializeBase_invariant {gam : Type} (f : Elem → gam)
    (haddClass : ∀ (e : Elem) (c : List Char), f (e.addClass c) = f e)
    (hsetAttr : ∀ (e : Elem) (n v : List Char), f (e.setAttr n v) = f e)
    (hsetId : ∀ (e : Elem) (i : List Char), f (e.setId i) = f e)
    (hsetText : ∀ (e : Elem) (x : List Char), f (e.setText x) = f e)
    (sep : Char) (decode : List Char → List Char)
    (m : RegexGroups) (tag : List Char) :
    f (materializeBase sep decode m tag) = f (createElement tag) := by
  have hclassTok : ∀ (e : Elem) (c : List Char),
      f (applyClassToken e c) = f e := by
    intro e c
    simp only [applyClassToken]
    by_cases hd : headIsDigit c <;> simp [hd, haddClass]
  have hattrItem : ∀ (e : Elem) (a : List Char),
      f (applyAttributeItem e a) = f e := by
    intro e a
    simp only [applyAttributeItem]
    by_cases hd : headIsDigit a
    · simp [hd]
    · simp only [hd, Bool.false_eq_true, if_false]
      split
      · apply hsetAttr
      · apply hsetAttr
  have hfoldClass : ∀ (cs : List (List Char)) (e : Elem),
      f (cs.foldl applyClassToken e) = f e := by
    intro cs
    induction cs with
    | nil => intro e; rfl
    | cons c rest ih =>
      intro e
      simp only [List.foldl_cons]
      rw [ih, hclassTok]
  have hfoldAttr : ∀ (items : List (List Char)) (e : Elem),
      f (items.foldl applyAttributeItem e) = f e := by
    intro items
    induction items with
    | nil => intro e; rfl
    | cons a rest ih =>
      intro e
      simp only [List.foldl_cons]
      rw [ih, hattrItem]
  simp only [materializeBase]
  cases (truthy m.classGroup).map
      (fun s => (splitOnChar '.' s).filter (fun v => v ≠ [])) with
  | none =>
    cases (truthy m.attrGroup).map (splitOnChar sep) with
    | none =>
      cases (truthy m.idGroup).map (removeFirstChar '#') with
      | none =>
        cases truthy m.contentGroup with
        | none => rfl
        | some c => rw [hsetText]
      | some v =>
        by_cases hv : v = [] <;>
          cases truthy m.contentGroup with
          | none => simp [hv, hsetId]
          | some c => simp [hv, hsetText, hsetId]
    | some items =>
      cases (truthy m.idGroup).map (removeFirstChar '#') with
      | none =>
        cases truthy m.contentGroup with
        | none => rw [hfoldAttr]
        | some c => rw [hsetText, hfoldAttr]
      | some v =>
        by_cases hv : v = [] <;>
          cases truthy m.contentGroup with
          | none => simp [hv, hsetId, hfoldAttr]
          | some c => simp [hv, hsetText, hsetId, hfoldAttr]
  | some cs =>
    cases (truthy m.attrGroup).map (splitOnChar sep) with
    | none =>
      cases (truthy m.idGroup).map (removeFirstChar '#') with
      | none =>
        cases truthy m.contentGroup with
        | none => rw [hfoldClass]
        | some c => rw [hsetText, hfoldClass]
      | some v =>
        by_cases hv : v = [] <;>
          cases truthy m.contentGroup with
          | none => simp [hv, hsetId, hfoldClass]
          | some c => simp [hv, hsetText, hsetId, hfoldClass]
    | some items =>
      cases (truthy m.idGroup).map (removeFirstChar '#') with
      | none =>
        cases truthy m.contentGroup with
        | none => rw [hfoldAttr, hfoldClass]
        | some c => rw [hsetText, hfoldAttr, hfoldClass]
      | some v =>
        by_cases hv : v = [] <;>
          cases truthy m.contentGroup with
          | none => simp [hv, hsetId, hfoldAttr, hfoldClass]
          | some c => simp [hv, hsetText, hsetId, hfoldAttr, hfoldClass]

theorem materializeBase_listeners (sep : Char) (decode : List Char → List Char)
    (m : RegexGroups) (tag : List Char) :
    (materializeBase sep decode m tag).listeners = [] := by
  rw [materializeBase_invariant Elem.listeners
    (fun e c => by cases e; rfl) (fun e n v => by cases e; rfl)
    (fun e i => by cases e; rfl) (fun e x => by cases e; rfl) sep decode m tag]
  rfl

theorem materializeBase_children (sep : Char) (decode : List Char → List Char)
    (m : RegexGroups) (tag : List Char) :
    (materializeBase sep decode m tag).children = [] := by
  rw [materializeBase_invariant Elem.children
    (fun e c => by cases e; rfl) (fun e n v => by cases e; rfl)
    (fun e i => by cases e; rfl) (fun e x => by cases e; rfl) sep decode m tag]
  rfl

/-- C8: materialization never throws because of event names.  If a line
materializes for the empty registry then it materializes for every registry
`E`; the produced node carries the same tag, classes, id, attributes and text,
every listener it carries is the registry's first exact-name match for that
listener's name, and a name with no exact-name match in `E` contributes no
listener at all. -/
theorem unresolved_event_never_throws (E : List Listener) (sep : Char)
    (decode : List Char → List Char) (line : List Char) (e₀ : Elem)
    (h : createElementFromLine [] sep decode line = .ok e₀) :
    ∃ e, createElementFromLine E sep decode line = .ok e ∧
      e.tag = e₀.tag ∧ e.classes = e₀.classes ∧ e.idAttr = e₀.idAttr ∧
      e.attrs = e₀.attrs ∧ e.text = e₀.text ∧
      (∀ L ∈ e.listeners, searchForEvent E L.name = some L) ∧
      (∀ name, searchForEvent E name = none → ∀ L ∈ e.listeners, L.name ≠ name) := by
  simp only [createElementFromLine] at h ⊢
  cases htag : truthy (regexGroupsOf line).tagGroup with
  | none =>
    rw [htag] at h
    simp at h
  | some tag =>
    rw [htag] at h
    dsimp only at h
    have he₀ : materializeFromGroups [] sep decode (regexGroupsOf line) tag = e₀ := by
      injection h
    refine ⟨materializeFromGroups E sep decode (regexGroupsOf line) tag, rfl, ?_⟩
    rw [← he₀]
    simp only [materializeFromGroups]
    cases hev : eventNamesOf (regexGroupsOf line) with
    | none =>
      dsimp only
      refine ⟨rfl, rfl, rfl, rfl, rfl, ?_, ?_⟩
      · intro L hL
        rw [materializeBase_listeners] at hL
        simp at hL
      · intro name _ L hL
        rw [materializeBase_listeners] at hL
        simp at hL
    | some names =>
      dsimp only
      rw [foldl_applyEventName_empty]
      obtain ⟨f1, f2, f3, f4, f5⟩ :=
        foldl_applyEventName_fields E names (materializeBase sep decode (regexGroupsOf line) tag)
      refine ⟨f1, f2, f3, f4, f5, ?_, ?_⟩
      · intro L hL
        rcases foldl_applyEventName_listeners E names
            (materializeBase sep decode (regexGroupsOf line) tag) hL with hbase | hs
        · rw [materializeBase_listeners] at hbase
          simp at hbase
        · exact hs
      · intro name hname L hL
        rcases foldl_applyEventName_listeners E names
            (materializeBase sep decode (regexGroupsOf line) tag) hL with hbase | hs
        · rw [materializeBase_listeners] at hbase
          simp at hbase
        · intro hLname
          rw [hLname] at hs
          rw [hname] at hs
          cases hs

/-- Witness for `unresolved_event_never_throws`: the line `button@nope`
against a registry holding only `click`. -/
theorem unresolved_event_never_throws_witness :
    ∃ e, createElementFromLine [⟨"click".data, "click".data, 7⟩] ';' (fun c => c)
        "button@nope".data = .ok e ∧
      e.tag = (Elem.mk "button".data [] none [] none [] []).tag ∧
      e.classes = (Elem.mk "button".data [] none [] none [] []).classes ∧
      e.idAttr = (Elem.mk "button".data [] none [] none [] []).idAttr ∧
      e.attrs = (Elem.mk "button".data [] none [] none [] []).attrs ∧
      e.text = (Elem.mk "button".data [] none [] none [] []).text ∧
      (∀ L ∈ e.listeners,
        searchForEvent [⟨"click".data, "click".data, 7⟩] L.name = some L) ∧
      (∀ name, searchForEvent [⟨"click".data, "click".data, 7⟩] name = none →
        ∀ L ∈ e.listeners, L.name ≠ name) :=
  unresolved_event_never_throws [⟨"click".data, "click".data, 7⟩] ';' (fun c => c)
    "button@nope".data (Elem.mk "button".data [] none [] none [] []) rfl

/-! ### Trimming lemmas -/

theorem dropWhile_length_le (p : Char → Bool) (l : List Char) :
    (l.dropWhile p).length ≤ l.length := by
  induction l with
  | nil => simp
  | cons c rest ih =>
    rw [List.dropWhile_cons]
    by_cases h : p c
    · simp only [h, if_true]
      exact Nat.le_succ_of_le ih
    · simp [h]

theorem dropWhile_cons_head_false {p : Char → Bool} {c : Char} {r : List Char}
    (h : (c :: r).dropWhile p = c :: r) : p c = false := by
  by_cases hc : p c
  · rw [List.dropWhile_cons, if_pos hc] at h
    have := dropWhile_length_le p r
    rw [h] at this
    simp at this
  · simpa using hc

theorem dropWhile_idem (p : Char → Bool) (l : List Char) :
    (l.dropWhile p).dropWhile p = l.dropWhile p := by
  induction l with
  | nil => simp
  | cons c rest ih =>
    rw [List.dropWhile_cons]
    by_cases h : p c
    · simpa [h] using ih
    · simp [List.dropWhile_cons, h]

theorem dropWhile_append_of_ne {p : Char → Bool} {l : List Char} (y : List Char)
    (h : l.dropWhile p ≠ []) : (l ++ y).dropWhile p = l.dropWhile p ++ y := by
  induction l with
  | nil => simp at h
  | cons c rest ih =>
    rw [List.cons_append, List.dropWhile_cons, List.dropWhile_cons]
    by_cases hc : p c
    · rw [List.dropWhile_cons, if_pos hc] at h
      simp only [hc, if_true]
      exact ih h
    · simp [hc]

theorem dropWhile_append_of_eq {p : Char → Bool} {l : List Char} (y : List Char)
    (h : l.dropWhile p = []) : (l ++ y).dropWhile p = y.dropWhile p := by
  induction l with
  | nil => simp
  | cons c rest ih =>
    rw [List.dropWhile_cons] at h
    by_cases hc : p c
    · rw [if_pos hc] at h
      rw [List.cons_append, List.dropWhile_cons, if_pos hc]
      exact ih h
    · rw [if_neg hc] at h
      simp at h

/-- Appending one trailing whitespace character does not change `trimRight`. -/
theorem trimRight_snoc_ws {c : Char} (hc : isWS c = true) (l : List Char) :
    trimRight (l ++ [c]) = trimRight l := by
  simp only [trimRight, List.reverse_append, List.reverse_cons, List.reverse_nil,
    List.nil_append, List.singleton_append, List.dropWhile_cons, hc, if_true]

/-- `trimRight` is idempotent. -/
theorem trimRight_idem (l : List Char) : trimRight (trimRight l) = trimRight l := by
  simp only [trimRight, List.reverse_reverse]
  rw [dropWhile_idem]

/-- A left-trimmed list stays left-trimmed after right trimming. -/
theorem trimLeft_trimRight (l : List Char) (h : trimLeft l = l) :
    trimLeft (trimRight l) = trimRight l := by
  cases l with
  | nil => rfl
  | cons c r =>
    have hc : isWS c = false := dropWhile_cons_head_false h
    simp only [trimRight, List.reverse_cons]
    by_cases hr : (r.reverse.dropWhile isWS) = []
    · rw [dropWhile_append_of_eq _ hr]
      simp [trimLeft, List.dropWhile_cons, hc]
    · rw [dropWhile_append_of_ne _ hr]
      rw [List.reverse_append]
      simp only [List.reverse_cons, List.reverse_nil, List.nil_append,
        List.singleton_append]
      simp [trimLeft, List.dropWhile_cons, hc]

/-- The two halves of `jsTrim` leave a trimmed list unchanged. -/
theorem trimLeft_jsTrim (l : List Char) : trimLeft (jsTrim l) = jsTrim l := by
  simp only [jsTrim]
  exact trimLeft_trimRight (trimLeft l) (dropWhile_idem isWS l)

theorem trimRight_jsTrim (l : List Char) : trimRight (jsTrim l) = jsTrim l := by
  simp only [jsTrim]
  exact trimRight_idem (trimLeft l)

/-- Appending one trailing whitespace character does not change `jsTrim`. -/
theorem jsTrim_snoc_ws {c : Char} (hc : isWS c = true) (l : List Char) :
    jsTrim (l ++ [c]) = jsTrim l := by
  simp only [jsTrim]
  by_cases h : trimLeft l = []
  · simp only [trimLeft] at h ⊢
    rw [dropWhile_append_of_eq _ h]
    simp only [List.dropWhile_cons, hc, if_true, List.dropWhile_nil, h]
  · simp only [trimLeft] at h ⊢
    rw [dropWhile_append_of_ne _ h]
    exact trimRight_snoc_ws hc _

/-- `jsTrim` is idempotent. -/
theorem jsTrim_idem (l : List Char) : jsTrim (jsTrim l) = jsTrim l := by
  conv_lhs => rw [jsTrim]
  rw [trimLeft_jsTrim, trimRight_jsTrim]

/-- `jsTrim` of an already fully trimmed list followed by a whitespace
character gives the list back. -/
theorem jsTrim_jsTrim_snoc_ws {c : Char} (hc : isWS c = true) (l : List Char) :
    jsTrim (jsTrim l ++ [c]) = jsTrim l := by
  rw [jsTrim_snoc_ws hc]
  exact jsTrim_idem l

/-- Join a list of lines, terminating each with a newline. -/
def joinLinesNl : List (List Char) → List Char
  | [] => []
  | l :: rest => l ++ '\n' :: joinLinesNl rest

theorem indent_zero_foldl (lines : List (List Char)) (acc : List Char) :
    lines.foldl (fun acc line => acc ++ List.replicate 0 '>' ++ line ++ ['\n']) acc =
      acc ++ joinLinesNl lines := by
  induction lines generalizing acc with
  | nil => simp [joinLinesNl]
  | cons l rest ih =>
    rw [List.foldl_cons, ih]
    simp [joinLinesNl]

theorem joinLinesNl_splitOnChar (s : List Char) :
    joinLinesNl (splitOnChar '\n' s) = s ++ ['\n'] := by
  induction s with
  | nil => rfl
  | cons c rest ih =>
    simp only [splitOnChar]
    by_cases hc : c = '\n'
    · rw [if_pos hc, hc]
      simp only [joinLinesNl, List.nil_append, List.cons_append]
      rw [ih]
    · rw [if_neg hc]
      cases hr : splitOnChar '\n' rest with
      | nil => exact absurd hr (splitOnChar_ne_nil '\n' rest)
      | cons h t =>
        simp only [joinLinesNl, List.cons_append]
        have : joinLinesNl (h :: t) = rest ++ ['\n'] := by rw [← hr]; exact ih
        simp only [joinLinesNl] at this
        rw [this]

/-- C5 counterexample: `reindent(t, 0)` is not `trim(t)` for `t = "a \nb"` —
the code additionally trims every line, so the inner `"a "` loses its
trailing space. -/
theorem reindent_zero_not_trim :
    indentTemplate "a \nb".data 0 ≠ jsTrim "a \nb".data := by
  decide

/-- C5 (amended): `reindent(t, 0)` raises no error and equals `trim(t)`
whenever every newline-separated segment of `trim(t)` carries no leading or
trailing whitespace of its own; in general each line is individually trimmed
before being rejoined. -/
theorem reindent_zero_eq_trim (t : List Char)
    (h : ∀ l ∈ splitOnChar '\n' (jsTrim t), jsTrim l = l) :
    indentTemplate t 0 = jsTrim t := by
  have hext : extractLinesFrom t = splitOnChar '\n' (jsTrim t) := by
    simp only [extractLinesFrom]
    rw [List.map_congr_left h]
    simp
  simp only [indentTemplate]
  rw [hext, indent_zero_foldl, List.nil_append, joinLinesNl_splitOnChar]
  exact jsTrim_jsTrim_snoc_ws (by decide) t

/-- Witness for `reindent_zero_eq_trim` at `t = "a\nb"`. -/
theorem reindent_zero_eq_trim_witness :
    indentTemplate "a\nb".data 0 = jsTrim "a\nb".data :=
  reindent_zero_eq_trim "a\nb".data (by decide)

/-! ### The main-line bookkeeping of `generate` -/

/-- Recursion-friendly form of `mainsOf`: the depth-0 lines paired with their
indices, counting from `i`. -/
def mainsAux : List (List Char) → Nat → List (List Char × Nat)
  | [], _ => []
  | l :: rest, i =>
    (if level l = 0 then [(l, i)] else []) ++ mainsAux rest (i + 1)

theorem mainsAux_eq_enumFrom (lines : List (List Char)) :
    ∀ i, ((lines.enumFrom i).filter (fun p => level p.2 == 0)).map
        (fun p => (p.2, p.1)) = mainsAux lines i := by
  induction lines with
  | nil => intro i; rfl
  | cons l rest ih =>
    intro i
    rw [List.enumFrom_cons, List.filter_cons]
    by_cases h : level l = 0
    · simp only [h, beq_self_eq_true, if_true, List.map_cons, mainsAux, if_pos h,
        List.singleton_append]
      rw [ih]
    · have hb : (level l == 0) = false := by simpa using h
      simp only [hb, Bool.false_eq_true, if_false, mainsAux, if_neg h,
        List.nil_append]
      exact ih (i + 1)

theorem mainsOf_eq_mainsAux (lines : List (List Char)) :
    mainsOf lines = mainsAux lines 0 := by
  rw [mainsOf, ← mainsAux_eq_enumFrom lines 0]
  rfl

theorem mainsAux_append (L₁ L₂ : List (List Char)) :
    ∀ i, mainsAux (L₁ ++ L₂) i = mainsAux L₁ i ++ mainsAux L₂ (i + L₁.length) := by
  induction L₁ with
  | nil => intro i; simp [mainsAux]
  | cons l rest ih =>
    intro i
    simp only [List.cons_append, mainsAux, List.length_cons, List.append_eq]
    rw [ih (i + 1)]
    have : i + 1 + rest.length = i + (rest.length + 1) := by omega
    rw [this, List.append_assoc]

theorem mainsAux_mem (L : List (List Char)) :
    ∀ (i : Nat) (p : List Char × Nat), p ∈ mainsAux L i →
      i ≤ p.2 ∧ p.2 - i < L.length ∧ p.1 = L.getD (p.2 - i) [] ∧ level p.1 = 0 := by
  induction L with
  | nil => intro i p hp; simp [mainsAux] at hp
  | cons l rest ih =>
    intro i p hp
    simp only [mainsAux] at hp
    rcases List.mem_append.mp hp with hh | ht
    · by_cases h : level l = 0
      · rw [if_pos h] at hh
        simp only [List.mem_singleton] at hh
        subst hh
        simp [h]
      · rw [if_neg h] at hh
        simp at hh
    · obtain ⟨h1, h2, h3, h4⟩ := ih (i + 1) p ht
      refine ⟨by omega, by simp; omega, ?_, h4⟩
      have : p.2 - i = (p.2 - (i + 1)) + 1 := by omega
      rw [this, List.getD_cons_succ]
      exact h3

theorem mainsAux_mem_of (L : List (List Char)) :
    ∀ (i : Nat) (l : List Char), l ∈ L → level l = 0 →
      ∃ idx, (l, idx) ∈ mainsAux L i := by
  induction L with
  | nil => intro i l hl; simp at hl
  | cons x rest ih =>
    intro i l hl hlev
    rcases List.mem_cons.mp hl with rfl | h'
    · exact ⟨i, by simp [mainsAux, hlev]⟩
    · obtain ⟨idx, hidx⟩ := ih (i + 1) l h' hlev
      exact ⟨idx, by simp only [mainsAux]; exact List.mem_append.mpr (Or.inr hidx)⟩

theorem mainsAux_succ (L : List (List Char)) :
    ∀ i, mainsAux L (i + 1) = (mainsAux L i).map (fun p => (p.1, p.2 + 1)) := by
  induction L with
  | nil => intro i; rfl
  | cons l rest ih =>
    intro i
    simp only [mainsAux, List.map_append, ih (i + 1)]
    by_cases h : level l = 0 <;> simp [h]

theorem mainsAux_nil_of_no_main (L : List (List Char))
    (h : ∀ l ∈ L, level l ≠ 0) : ∀ i, mainsAux L i = [] := by
  induction L with
  | nil => intro i; rfl
  | cons l rest ih =>
    intro i
    simp only [mainsAux, if_neg (h l (List.mem_cons_self ..)), List.nil_append]
    exact ih (fun x hx => h x (List.mem_cons_of_mem _ hx)) (i + 1)

theorem childLinesSlice_cons (x : List Char) (lines : List (List Char))
    (idx n : Nat) :
    childLinesSlice (x :: lines) (idx + 1) (n + 1) = childLinesSlice lines idx n := by
  simp only [childLinesSlice, List.drop_succ_cons, Nat.succ_sub_succ]

/-- Shifting every main index by one while prepending a line leaves the block
outputs unchanged. -/
theorem generateBlocks_shift (E : List Listener) (sep : Char)
    (decode : List Char → List Char) (x : List Char) (lines : List (List Char)) :
    ∀ mains : List (List Char × Nat),
      generateBlocks E sep decode (x :: lines) (mains.map (fun p => (p.1, p.2 + 1))) =
        generateBlocks E sep decode lines mains := by
  intro mains
  induction mains with
  | nil => rfl
  | cons p rest ih =>
    simp only [List.map_cons, generateBlocks]
    have hnext : nextMainIdx (x :: lines) (rest.map (fun p => (p.1, p.2 + 1))) =
        nextMainIdx lines rest + 1 := by
      cases rest with
      | nil => simp [nextMainIdx]
      | cons q t => simp [nextMainIdx]
    rw [hnext, childLinesSlice_cons]
    cases hmain : createElementFromLine E sep decode p.1 with
    | error err => rfl
    | ok mainElem =>
      dsimp only
      cases hkids : parseChildren E sep decode
          (childLinesSlice lines p.2 (nextMainIdx lines rest)) with
      | error err => rfl
      | ok kids =>
        dsimp only
        rw [ih]

/-- Dropping a leading non-top-level line does not change compilation. -/
theorem generateFromLines_cons_nonmain (E : List Listener) (sep : Char)
    (decode : List Char → List Char) (x : List Char) (lines : List (List Char))
    (h : level x ≠ 0) :
    generateFromLines E sep decode (x :: lines) =
      generateFromLines E sep decode lines := by
  simp only [generateFromLines, mainsOf_eq_mainsAux]
  simp only [mainsAux, if_neg h, List.nil_append]
  rw [mainsAux_succ, generateBlocks_shift]

/-- Dropping any all-non-top-level prefix does not change compilation. -/
theorem generateFromLines_drop_nonmain (E : List Listener) (sep : Char)
    (decode : List Char → List Char) :
    ∀ (k : Nat) (lines : List (List Char)),
      (∀ j, j < k → j < lines.length → level (lines.getD j []) ≠ 0) →
      generateFromLines E sep decode lines =
        generateFromLines E sep decode (lines.drop k) := by
  intro k
  induction k with
  | zero => intro lines _; rfl
  | succ k ih =>
    intro lines h
    cases lines with
    | nil => rfl
    | cons x rest =>
      have hx : level x ≠ 0 := h 0 (by omega) (by simp)
      rw [generateFromLines_cons_nonmain E sep decode x rest hx, List.drop_succ_cons]
      exact ih rest (fun j hj hjl => h (j + 1) (by omega) (by simpa using hjl))

theorem findIdx_prefix_not (L : List (List Char)) :
    ∀ j, j < L.findIdx (fun l => level l == 0) → j < L.length →
      level (L.getD j []) ≠ 0 := by
  induction L with
  | nil => intro j h1 h2; simp at h2
  | cons x rest ih =>
    intro j h1 h2
    rw [List.findIdx_cons] at h1
    by_cases hx : level x = 0
    · simp [hx] at h1
    · have hb : (level x == 0) = false := by simpa using hx
      rw [hb] at h1
      simp only [cond_false] at h1
      cases j with
      | zero => simpa using hx
      | succ j =>
        rw [List.getD_cons_succ]
        exact ih j (by omega) (by simpa using h2)

/-- C10: compilation silently ignores every line before the first depth-0
line — the output equals that of compiling the lines from the first depth-0
line on (those earlier lines are never parsed and never raise an error) — and
a template with no depth-0 line at all appends nothing and raises no error. -/
theorem lines_before_first_main_skipped (E : List Listener) (sep : Char)
    (decode : List Char → List Char) (t : List Char) :
    (jsTrim t ≠ [] →
      generate E sep decode t =
        generateFromLines E sep decode
          ((extractLinesFrom t).drop
            ((extractLinesFrom t).findIdx (fun l => level l == 0)))) ∧
    ((∀ l ∈ extractLinesFrom t, level l ≠ 0) →
      generate E sep decode t = ([], none)) := by
  constructor
  · intro hne
    have hlen : ¬(jsTrim t).length = 0 := by
      simpa [List.length_eq_zero] using hne
    simp only [generate, hlen, if_false]
    exact generateFromLines_drop_nonmain E sep decode _ (extractLinesFrom t)
      (fun j hj hjl => findIdx_prefix_not (extractLinesFrom t) j hj hjl)
  · intro hall
    by_cases hlen : (jsTrim t).length = 0
    · simp [generate, hlen]
    · simp only [generate, hlen, if_false]
      simp only [generateFromLines, mainsOf_eq_mainsAux,
        mainsAux_nil_of_no_main (extractLinesFrom t) hall 0]
      rfl

/-- Witness for `lines_before_first_main_skipped`: a malformed `>`-indented
line before the first depth-0 line, and a template with no depth-0 line. -/
theorem lines_before_first_main_skipped_witness :
    (generate [] ';' (fun c => c) ">!\ndiv".data =
      generateFromLines [] ';' (fun c => c)
        ((extractLinesFrom ">!\ndiv".data).drop
          ((extractLinesFrom ">!\ndiv".data).findIdx (fun l => level l == 0)))) ∧
    generate [] ';' (fun c => c) ">!".data = ([], none) :=
  ⟨(lines_before_first_main_skipped [] ';' (fun c => c) ">!\ndiv".data).1 (by decide),
   (lines_before_first_main_skipped [] ';' (fun c => c) ">!".data).2 (by decide)⟩

/-! ### Line extraction and blank lines -/

theorem splitOnChar_length (sep : Char) (l : List Char) :
    (splitOnChar sep l).length = l.count sep + 1 := by
  induction l with
  | nil => simp [splitOnChar]
  | cons c rest ih =>
    simp only [splitOnChar]
    by_cases hc : c = sep
    · simp only [hc, if_pos rfl, List.length_cons, List.count_cons, beq_self_eq_true,
        if_true]
      omega
    · have hb : (c == sep) = false := by simpa using hc
      simp only [hc, if_false, List.count_cons, hb, Bool.false_eq_true]
      cases hr : splitOnChar sep rest with
      | nil => exact absurd hr (splitOnChar_ne_nil sep rest)
      | cons h t =>
        rw [hr] at ih
        simpa using ih

/-- A line with no word character — in particular the empty line — throws. -/
theorem createElementFromLine_nil_fails (E : List Listener) (sep : Char)
    (decode : List Char → List Char) :
    ∀ e : Elem, createElementFromLine E sep decode [] ≠ .ok e := by
  intro e h
  have hnil : createElementFromLine E sep decode [] =
      .error ("HTMLBuilder: unable to parse a line: \"".data ++ [] ++ "\"".data) := rfl
  rw [hnil] at h
  exact Except.noConfusion h

/-- If any top-level line of `mains` fails to parse, the block loop reports an
error. -/
theorem generateBlocks_isSome_of_main_fails (E : List Listener) (sep : Char)
    (decode : List Char → List Char) (lines : List (List Char)) :
    ∀ (mains : List (List Char × Nat)) (p : List Char × Nat), p ∈ mains →
      (∀ e : Elem, createElementFromLine E sep decode p.1 ≠ .ok e) →
      (generateBlocks E sep decode lines mains).2.isSome := by
  intro mains
  induction mains with
  | nil => intro p hp; simp at hp
  | cons q rest ih =>
    intro p hp hfail
    simp only [generateBlocks]
    cases hmain : createElementFromLine E sep decode q.1 with
    | error err => simp
    | ok mainElem =>
      dsimp only
      rcases List.mem_cons.mp hp with rfl | hmem
      · exact absurd hmain (hfail mainElem)
      · cases hkids : parseChildren E sep decode
            (childLinesSlice lines q.2 (nextMainIdx lines rest)) with
        | error err => simp
        | ok kids =>
          dsimp only
          exact ih p hmem hfail

/-- C3 counterexample: for `div\n\ndiv` the claim fails on every count — the
blank-after-trimming interior line is not dropped (it is among the extracted
lines, giving three pairs for only two non-blank input lines), and far from
contributing neither nodes nor errors, it makes compilation throw after only
the first of the two `div` roots has been appended. -/
theorem blank_line_not_dropped :
    extractLinesFrom "div\n\ndiv".data = ["div".data, [], "div".data] ∧
    [] ∈ extractLinesFrom "div\n\ndiv".data ∧
    (extractLinesFrom "div\n\ndiv".data).length = 3 ∧
    ((extractLinesFrom "div\n\ndiv".data).filter (fun l => !l.isEmpty)).length = 2 ∧
    (generate [] ';' (fun c => c) "div\n\ndiv".data).2.isSome = true ∧
    (generate [] ';' (fun c => c) "div\n\ndiv".data).1.length = 1 :=
  ⟨by decide, by decide, by decide, by decide, by decide, by decide⟩

/-- C3 (amended): line splitting produces exactly one trimmed line per
newline-separated segment of the outer-trimmed template — one per input line,
blank or not, except that the outer trim removes leading and trailing blank
lines; every produced line carries no surrounding whitespace, and a blank
produced line has depth 0.  A blank interior line is not dropped: it is kept
as an empty depth-0 line and makes compilation throw `MalformedLine`. -/
theorem line_extraction_spec (E : List Listener) (sep : Char)
    (decode : List Char → List Char) (t : List Char) :
    ((extractLinesFrom t).length = (jsTrim t).count '\n' + 1) ∧
    (∀ l ∈ extractLinesFrom t, jsTrim l = l ∧ (l = [] → level l = 0)) ∧
    (jsTrim t ≠ [] → [] ∈ extractLinesFrom t →
      (generate E sep decode t).2.isSome) := by
  refine ⟨?_, ?_, ?_⟩
  · simp only [extractLinesFrom, List.length_map]
    exact splitOnChar_length '\n' (jsTrim t)
  · intro l hl
    simp only [extractLinesFrom, List.mem_map] at hl
    obtain ⟨x, _, rfl⟩ := hl
    exact ⟨jsTrim_idem x, fun h => by rw [h]; rfl⟩
  · intro hne hblank
    have hlen : ¬(jsTrim t).length = 0 := by
      simpa [List.length_eq_zero] using hne
    simp only [generate, hlen, if_false, generateFromLines, mainsOf_eq_mainsAux]
    have hlev : level ([] : List Char) = 0 := rfl
    obtain ⟨idx, hidx⟩ := mainsAux_mem_of (extractLinesFrom t) 0 [] hblank hlev
    exact generateBlocks_isSome_of_main_fails E sep decode (extractLinesFrom t)
      (mainsAux (extractLinesFrom t) 0) ([], idx) hidx
      (createElementFromLine_nil_fails E sep decode)

/-- Witness for `line_extraction_spec` at the template `div\n\ndiv`. -/
theorem line_extraction_spec_witness :
    (generate [] ';' (fun c => c) "div\n\ndiv".data).2.isSome = true :=
  (line_extraction_spec [] ';' (fun c => c) "div\n\ndiv".data).2.2
    (by decide) (by decide)

/-! ### Depth-0 templates -/

theorem except_toOption_isSome {ε α : Type} (x : Except ε α) :
    x.toOption.isSome = true ↔ ∃ a, x = .ok a := by
  cases x with
  | error err => simp [Except.toOption]
  | ok a => simp [Except.toOption]

theorem applyEventName_children (E : List Listener) (e : Elem) (n : List Char) :
    (applyEventName E e n).children = e.children := by
  simp only [applyEventName]
  by_cases hd : headIsDigit n
  · simp [hd]
  · simp only [hd, Bool.false_eq_true, if_false]
    cases searchForEvent E n with
    | none => rfl
    | some ev => cases e; rfl

theorem foldl_applyEventName_children (E : List Listener) (names : List (List Char))
    (e : Elem) :
    (names.foldl (applyEventName E) e).children = e.children := by
  induction names generalizing e with
  | nil => rfl
  | cons n rest ih =>
    simp only [List.foldl_cons]
    rw [ih, applyEventName_children]

/-- A freshly materialized line has no element children. -/
theorem createElementFromLine_ok_children (E : List Listener) (sep : Char)
    (decode : List Char → List Char) (line : List Char) (e : Elem)
    (h : createElementFromLine E sep decode line = .ok e) : e.children = [] := by
  simp only [createElementFromLine] at h
  cases htag : truthy (regexGroupsOf line).tagGroup with
  | none =>
    rw [htag] at h
    simp at h
  | some tag =>
    rw [htag] at h
    dsimp only at h
    have he : materializeFromGroups E sep decode (regexGroupsOf line) tag = e := by
      injection h
    rw [← he]
    simp only [materializeFromGroups]
    cases eventNamesOf (regexGroupsOf line) with
    | none => exact materializeBase_children sep decode (regexGroupsOf line) tag
    | some names =>
      dsimp only
      rw [foldl_applyEventName_children]
      exact materializeBase_children sep decode (regexGroupsOf line) tag

/-- Consecutively indexed main lines, as produced by an all-depth-0 template. -/
def consecMains : List (List Char) → Nat → List (List Char × Nat)
  | [], _ => []
  | l :: rest, i => (l, i) :: consecMains rest (i + 1)

theorem mainsAux_all_main (L : List (List Char)) (h : ∀ l ∈ L, level l = 0) :
    ∀ i, mainsAux L i = consecMains L i := by
  induction L with
  | nil => intro i; rfl
  | cons l rest ih =>
    intro i
    simp only [mainsAux, if_pos (h l (List.mem_cons_self ..)), consecMains,
      List.singleton_append, List.cons.injEq, true_and]
    exact ih (fun x hx => h x (List.mem_cons_of_mem _ hx)) (i + 1)

theorem generateBlocks_consec (E : List Listener) (sep : Char)
    (decode : List Char → List Char) :
    ∀ (L : List (List Char)) (start : Nat) (lines : List (List Char)),
      start + L.length = lines.length →
      (∀ l ∈ L, (createElementFromLine E sep decode l).toOption.isSome = true) →
      (generateBlocks E sep decode lines (consecMains L start)).2 = none ∧
      (generateBlocks E sep decode lines (consecMains L start)).1.length = L.length ∧
      (∀ k, k < L.length →
        (createElementFromLine E sep decode (L.getD k [])).toOption =
          some ((generateBlocks E sep decode lines (consecMains L start)).1.getD k
            defaultElem)) := by
  intro L
  induction L with
  | nil =>
    intro start lines _ _
    exact ⟨rfl, rfl, fun k hk => absurd hk (by simp)⟩
  | cons l rest ih =>
    intro start lines hlen hok
    obtain ⟨e, he⟩ := (except_toOption_isSome _).mp (hok l (List.mem_cons_self ..))
    have hslice : childLinesSlice lines start
        (nextMainIdx lines (consecMains rest (start + 1))) = [] := by
      cases rest with
      | nil =>
        simp only [consecMains, nextMainIdx, childLinesSlice]
        have hlen' : start + 1 = lines.length := by simpa using hlen
        have : lines.length - (start + 1) = 0 := by omega
        rw [this, List.take_zero]
      | cons q t =>
        simp only [consecMains, nextMainIdx, childLinesSlice, Nat.sub_self,
          List.take_zero]
    have hrest := ih (start + 1) lines
      (by simp only [List.length_cons] at hlen; omega)
      (fun x hx => hok x (List.mem_cons_of_mem _ hx))
    simp only [consecMains, generateBlocks, he, hslice]
    dsimp only [parseChildren]
    refine ⟨hrest.1, by simpa using hrest.2.1, ?_⟩
    intro k hk
    cases k with
    | zero =>
      simp only [List.getD_cons_zero, he, Except.toOption]
      rfl
    | succ k =>
      simp only [List.getD_cons_succ]
      exact hrest.2.2 k (by simpa using hk)

/-- C7 counterexample: `!` is a non-blank depth-0 line, yet compilation
appends no root for it and throws instead. -/
theorem depth0_line_without_root :
    level "!".data = 0 ∧
    extractLinesFrom "!".data = ["!".data] ∧
    (generate [] ';' (fun c => c) "!".data).1.length = 0 ∧
    (generate [] ';' (fun c => c) "!".data).2.isSome = true :=
  ⟨by decide, by decide, by decide, by decide⟩

/-- C7 (amended): for a template all of whose extracted lines are depth-0 and
parse successfully, compilation raises no error and appends exactly one root
per line, in line order, each root being the materialized line with no
element children. -/
theorem depth0_template_roots (E : List Listener) (sep : Char)
    (decode : List Char → List Char) (t : List Char)
    (hne : jsTrim t ≠ [])
    (hall : ∀ l ∈ extractLinesFrom t, level l = 0 ∧
      (createElementFromLine E sep decode l).toOption.isSome = true) :
    (generate E sep decode t).2 = none ∧
    (generate E sep decode t).1.length = (extractLinesFrom t).length ∧
    (∀ k, k < (extractLinesFrom t).length →
      (createElementFromLine E sep decode ((extractLinesFrom t).getD k [])).toOption =
        some ((generate E sep decode t).1.getD k defaultElem)) ∧
    (∀ e ∈ (generate E sep decode t).1, e.children = []) := by
  have hlen : ¬(jsTrim t).length = 0 := by
    simpa [List.length_eq_zero] using hne
  have hmains : mainsOf (extractLinesFrom t) = consecMains (extractLinesFrom t) 0 := by
    rw [mainsOf_eq_mainsAux]
    exact mainsAux_all_main (extractLinesFrom t) (fun l hl => (hall l hl).1) 0
  obtain ⟨h1, h2, h3⟩ := generateBlocks_consec E sep decode (extractLinesFrom t) 0
    (extractLinesFrom t) (by omega) (fun l hl => (hall l hl).2)
  have hgen : generate E sep decode t =
      generateBlocks E sep decode (extractLinesFrom t)
        (consecMains (extractLinesFrom t) 0) := by
    simp only [generate, hlen, if_false, generateFromLines, hmains]
  refine ⟨by rw [hgen]; exact h1, by rw [hgen]; exact h2, ?_, ?_⟩
  · intro k hk
    rw [hgen]
    exact h3 k hk
  · intro e he
    rw [hgen] at he
    obtain ⟨k, hk, hke⟩ := mem_getD defaultElem he
    rw [h2] at hk
    have := h3 k hk
    rw [hke] at this
    obtain ⟨e', he'⟩ := (except_toOption_isSome
      (createElementFromLine E sep decode ((extractLinesFrom t).getD k []))).mp
      (by rw [this]; rfl)
    have : e' = e := by
      rw [he'] at this
      simpa [Except.toOption] using this
    subst this
    exact createElementFromLine_ok_children E sep decode _ _ he'

/-- Witness for `depth0_template_roots` at the template `a\nb`. -/
theorem depth0_template_roots_witness :
    (generate [] ';' (fun c => c) "a\nb".data).2 = none ∧
    (generate [] ';' (fun c => c) "a\nb".data).1.length =
      (extractLinesFrom "a\nb".data).length ∧
    (∀ k, k < (extractLinesFrom "a\nb".data).length →
      (createElementFromLine [] ';' (fun c => c)
          ((extractLinesFrom "a\nb".data).getD k [])).toOption =
        some ((generate [] ';' (fun c => c) "a\nb".data).1.getD k defaultElem)) ∧
    (∀ e ∈ (generate [] ';' (fun c => c) "a\nb".data).1, e.children = []) :=
  depth0_template_roots [] ';' (fun c => c) "a\nb".data (by decide) (by decide)

/-! ### Error propagation across blocks -/

theorem getD_drop {α : Type} (l : List α) (d : α) :
    ∀ (i j : Nat), (l.drop i).getD j d = l.getD (i + j) d := by
  induction l with
  | nil => intro i j; simp
  | cons x xs ih =>
    intro i j
    cases i with
    | zero => simp
    | succ i =>
      rw [List.drop_succ_cons]
      have : i + 1 + j = (i + j) + 1 := by omega
      rw [this, List.getD_cons_succ]
      exact ih i j

theorem drop_eq_getD_cons {α : Type} (l : List α) (d : α) :
    ∀ i, i < l.length → l.drop i = l.getD i d :: l.drop (i + 1) := by
  induction l with
  | nil => intro i hi; simp at hi
  | cons x xs ih =>
    intro i hi
    cases i with
    | zero => rfl
    | succ i =>
      rw [List.drop_succ_cons, List.getD_cons_succ, List.drop_succ_cons]
      exact ih i (by simpa using hi)

theorem childLinesSlice_take {lines : List (List Char)} {i n b : Nat} (h : n ≤ b) :
    childLinesSlice (lines.take b) i n = childLinesSlice lines i n := by
  simp only [childLinesSlice, List.drop_take, List.take_take]
  congr 1
  omega

theorem parseChildren_fails_of_mem (E : List Listener) (sep : Char)
    (decode : List Char → List Char) {l : List Char} :
    ∀ (ls : List (List Char)), l ∈ ls →
      (∀ e : Elem, createElementFromLine E sep decode l ≠ .ok e) →
      ∀ kids : Pending, parseChildren E sep decode ls ≠ .ok kids := by
  intro ls
  induction ls with
  | nil => intro hl; simp at hl
  | cons x rest ih =>
    intro hl hfail kids hok
    simp only [parseChildren] at hok
    cases hx : createElementFromLine E sep decode x with
    | error err =>
      rw [hx] at hok
      exact Except.noConfusion hok
    | ok e =>
      rw [hx] at hok
      rcases List.mem_cons.mp hl with rfl | hmem
      · exact hfail e hx
      · cases hrest : parseChildren E sep decode rest with
        | error err =>
          rw [hrest] at hok
          exact Except.noConfusion hok
        | ok kids' => exact ih hmem hfail kids' hrest

theorem parseChildren_ok_of_all (E : List Listener) (sep : Char)
    (decode : List Char → List Char) :
    ∀ ls : List (List Char),
      (∀ l ∈ ls, ∃ e : Elem, createElementFromLine E sep decode l = .ok e) →
      ∃ kids : Pending, parseChildren E sep decode ls = .ok kids := by
  intro ls
  induction ls with
  | nil => intro _; exact ⟨[], rfl⟩
  | cons x rest ih =>
    intro hall
    obtain ⟨e, he⟩ := hall x (List.mem_cons_self ..)
    obtain ⟨kids, hkids⟩ := ih (fun l hl => hall l (List.mem_cons_of_mem _ hl))
    refine ⟨(e, level x) :: kids, ?_⟩
    simp only [parseChildren, he, hkids]
    rfl

theorem generateBlocks_none_of_all (E : List Listener) (sep : Char)
    (decode : List Char → List Char) (L : List (List Char))
    (hall : ∀ l ∈ L, ∃ e : Elem, createElementFromLine E sep decode l = .ok e) :
    ∀ mains : List (List Char × Nat), (∀ p ∈ mains, p.1 ∈ L) →
      (generateBlocks E sep decode L mains).2 = none := by
  intro mains
  induction mains with
  | nil => intro _; rfl
  | cons p rest ih =>
    intro hmem
    obtain ⟨e, he⟩ := hall p.1 (hmem p (List.mem_cons_self ..))
    obtain ⟨kids, hkids⟩ := parseChildren_ok_of_all E sep decode
      (childLinesSlice L p.2 (nextMainIdx L rest))
      (fun l hl => hall l
        (List.mem_of_mem_drop (List.mem_of_mem_take
          (by simpa [childLinesSlice] using hl))))
    have hp : (p.1, p.2) = p := rfl
    rw [← hp]
    simp only [generateBlocks, he, hkids]
    exact ih (fun q hq => hmem q (List.mem_cons_of_mem _ hq))

theorem generateFromLines_none_of_all (E : List Listener) (sep : Char)
    (decode : List Char → List Char) (L : List (List Char))
    (hall : ∀ l ∈ L, ∃ e : Elem, createElementFromLine E sep decode l = .ok e) :
    (generateFromLines E sep decode L).2 = none := by
  simp only [generateFromLines, mainsOf_eq_mainsAux]
  refine generateBlocks_none_of_all E sep decode L hall (mainsAux L 0) ?_
  intro p hp
  obtain ⟨_, h2, h3, _⟩ := mainsAux_mem L 0 p hp
  rw [h3]
  exact getD_mem L [] (by simpa using h2)

/-- The block loop, run on a main-line list split as `mains₁ ++ bad :: mains₂`
where every `mains₁` block succeeds and the `bad` block fails: the output
roots are exactly those of compiling the truncated line list `lines.take
bad.2`, and an error is reported. -/
theorem generateBlocks_cut (E : List Listener) (sep : Char)
    (decode : List Char → List Char) (lines : List (List Char))
    (bad : List Char × Nat) (mains₂ : List (List Char × Nat))
    (hb : bad.2 ≤ lines.length)
    (hbad : ∀ (e : Elem) (kids : Pending),
      ¬(createElementFromLine E sep decode bad.1 = .ok e ∧
        parseChildren E sep decode
          (childLinesSlice lines bad.2 (nextMainIdx lines mains₂)) = .ok kids)) :
    ∀ mains₁ : List (List Char × Nat),
      (∀ p ∈ mains₁, p.2 < bad.2) →
      (generateBlocks E sep decode (lines.take bad.2) mains₁).2 = none →
      (generateBlocks E sep decode lines (mains₁ ++ bad :: mains₂)).1 =
        (generateBlocks E sep decode (lines.take bad.2) mains₁).1 ∧
      (generateBlocks E sep decode lines (mains₁ ++ bad :: mains₂)).2.isSome = true := by
  intro mains₁
  induction mains₁ with
  | nil =>
    intro _ _
    have hbadp : (bad.1, bad.2) = bad := rfl
    rw [List.nil_append, ← hbadp]
    simp only [generateBlocks]
    cases hmain : createElementFromLine E sep decode bad.1 with
    | error err => exact ⟨rfl, rfl⟩
    | ok e =>
      dsimp only
      cases hkids : parseChildren E sep decode
          (childLinesSlice lines bad.2 (nextMainIdx lines mains₂)) with
      | error err => exact ⟨rfl, rfl⟩
      | ok kids => exact absurd ⟨hmain, hkids⟩ (hbad e kids)
  | cons p rest₁ ih =>
    intro hidx hok
    have hn : nextMainIdx lines (rest₁ ++ bad :: mains₂) =
        nextMainIdx (lines.take bad.2) rest₁ := by
      cases rest₁ with
      | nil =>
        simp only [List.nil_append, nextMainIdx, List.length_take]
        omega
      | cons q t => rfl
    have hnb : nextMainIdx (lines.take bad.2) rest₁ ≤ bad.2 := by
      cases rest₁ with
      | nil =>
        simp only [nextMainIdx, List.length_take]
        omega
      | cons q t =>
        simp only [nextMainIdx]
        exact Nat.le_of_lt (hidx q (List.mem_cons_of_mem _ (List.mem_cons_self ..)))
    have hp : (p.1, p.2) = p := rfl
    rw [List.cons_append, ← hp]
    rw [← hp] at hok
    simp only [generateBlocks, hn] at hok ⊢
    cases hmain : createElementFromLine E sep decode p.1 with
    | error err =>
      rw [hmain] at hok
      simp at hok
    | ok e =>
      rw [hmain] at hok
      dsimp only at hok ⊢
      rw [childLinesSlice_take hnb] at hok ⊢
      cases hkids : parseChildren E sep decode
          (childLinesSlice lines p.2 (nextMainIdx (lines.take bad.2) rest₁)) with
      | error err =>
        rw [hkids] at hok
        simp at hok
      | ok kids =>
        rw [hkids] at hok
        dsimp only at hok ⊢
        obtain ⟨ih1, ih2⟩ := ih (fun q hq => hidx q (List.mem_cons_of_mem _ hq)) hok
        exact ⟨by rw [ih1], ih2⟩

/-- C6 counterexample: a line that yields no tag does not always make
`compile` throw — for `>\ndiv` the line `>` yields no tag, yet it sits before
the first depth-0 line, so `generate` reports no error and appends the `div`
block. -/
theorem malformed_prefix_line_never_throws :
    (createElementFromLine [] ';' (fun c => c) ">".data).toOption.isNone = true ∧
    ">".data ∈ extractLinesFrom ">\ndiv".data ∧
    (generate [] ';' (fun c => c) ">\ndiv".data).2 = none ∧
    (generate [] ';' (fun c => c) ">\ndiv".data).1.length = 1 :=
  ⟨by decide, by decide, by decide, by decide⟩

/-- C6 (amended): when some line at or after the first depth-0 line yields no
tag, `generate` throws a `MalformedLine` error; the roots appended are
exactly those produced by compiling the lines strictly before the failing
line's block (every earlier block remains attached, in order), and no node of
the failing block is attached.  Here `f` is the first failing line, `m₀` the
first depth-0 line, and `mStar` the failing block's own depth-0 line. -/
theorem malformed_line_aborts (E : List Listener) (sep : Char)
    (decode : List Char → List Char) (t : List Char) (m₀ f mStar : Nat)
    (hne : jsTrim t ≠ [])
    (hflt : f < (extractLinesFrom t).length)
    (hffail : (createElementFromLine E sep decode
      ((extractLinesFrom t).getD f [])).toOption.isNone = true)
    (hm0f : m₀ ≤ f)
    (hm0main : level ((extractLinesFrom t).getD m₀ []) = 0)
    (hm0first : ∀ j, j < m₀ → level ((extractLinesFrom t).getD j []) ≠ 0)
    (hfirst : ∀ j, m₀ ≤ j → j < f →
      (createElementFromLine E sep decode
        ((extractLinesFrom t).getD j [])).toOption.isSome = true)
    (hmSf : mStar ≤ f)
    (hmSmain : level ((extractLinesFrom t).getD mStar []) = 0)
    (hmSlast : ∀ j, mStar < j → j ≤ f →
      level ((extractLinesFrom t).getD j []) ≠ 0) :
    (generate E sep decode t).2.isSome = true ∧
    (generate E sep decode t).1 =
      (generateFromLines E sep decode ((extractLinesFrom t).take mStar)).1 ∧
    (generateFromLines E sep decode ((extractLinesFrom t).take mStar)).2 = none := by
  set lines := extractLinesFrom t with hlines
  have hm0S : m₀ ≤ mStar := by
    by_contra hcon
    exact hm0first mStar (by omega) hmSmain
  have hmSlt : mStar < lines.length := by omega
  have hffail' : ∀ e : Elem,
      createElementFromLine E sep decode (lines.getD f []) ≠ .ok e := by
    intro e h
    rw [h] at hffail
    simp [Except.toOption] at hffail
  have hdecomp : lines = lines.take mStar ++
      (lines.getD mStar [] :: lines.drop (mStar + 1)) := by
    conv_lhs => rw [← List.take_append_drop mStar lines]
    rw [drop_eq_getD_cons lines [] mStar hmSlt]
  have htklen : (lines.take mStar).length = mStar := by
    rw [List.length_take]
    omega
  have hmains : mainsAux lines 0 =
      mainsAux (lines.take mStar) 0 ++
        ((lines.getD mStar [], mStar) ::
          mainsAux (lines.drop (mStar + 1)) (mStar + 1)) := by
    conv_lhs => rw [hdecomp]
    rw [mainsAux_append, htklen]
    simp only [mainsAux, Nat.zero_add, if_pos hmSmain, List.singleton_append]
  have hnext_gt : f < nextMainIdx lines
      (mainsAux (lines.drop (mStar + 1)) (mStar + 1)) := by
    cases hm2 : mainsAux (lines.drop (mStar + 1)) (mStar + 1) with
    | nil => simpa [nextMainIdx] using hflt
    | cons q rest2 =>
      simp only [nextMainIdx]
      obtain ⟨hq1, hq2, hq3, hq4⟩ := mainsAux_mem (lines.drop (mStar + 1))
        (mStar + 1) q (by rw [hm2]; exact List.mem_cons_self ..)
      rw [getD_drop] at hq3
      have hq5 : mStar + 1 + (q.2 - (mStar + 1)) = q.2 := by omega
      rw [hq5] at hq3
      by_contra hcon
      refine hmSlast q.2 (by omega) (by omega) ?_
      rw [← hq3]
      exact hq4
  have hbad : ∀ (e : Elem) (kids : Pending),
      ¬(createElementFromLine E sep decode (lines.getD mStar []) = .ok e ∧
        parseChildren E sep decode
          (childLinesSlice lines mStar
            (nextMainIdx lines (mainsAux (lines.drop (mStar + 1)) (mStar + 1)))) =
          .ok kids) := by
    rintro e kids ⟨hm, hk⟩
    by_cases hf : f = mStar
    · subst hf
      exact hffail' e hm
    · have hfgt : mStar < f := by omega
      have hmem : lines.getD f [] ∈ childLinesSlice lines mStar
          (nextMainIdx lines (mainsAux (lines.drop (mStar + 1)) (mStar + 1))) := by
        have hjlt : f - (mStar + 1) <
            (childLinesSlice lines mStar
              (nextMainIdx lines
                (mainsAux (lines.drop (mStar + 1)) (mStar + 1)))).length := by
          simp only [childLinesSlice, List.length_take, List.length_drop]
          exact lt_min_iff.mpr ⟨by omega, by omega⟩
        have hgd : (childLinesSlice lines mStar
            (nextMainIdx lines
              (mainsAux (lines.drop (mStar + 1)) (mStar + 1)))).getD
              (f - (mStar + 1)) [] = lines.getD f [] := by
          simp only [childLinesSlice]
          rw [getD_take _ _ (by omega), getD_drop]
          congr 1
          omega
        rw [← hgd]
        exact getD_mem _ [] hjlt
      exact parseChildren_fails_of_mem E sep decode _ hmem hffail' kids hk
  have hidx1 : ∀ p ∈ mainsAux (lines.take mStar) 0, p.2 < mStar := by
    intro p hp
    obtain ⟨_, h2, _, _⟩ := mainsAux_mem (lines.take mStar) 0 p hp
    rw [htklen] at h2
    omega
  have hpre : ∀ j, j < m₀ → j < (lines.take mStar).length →
      level ((lines.take mStar).getD j []) ≠ 0 := by
    intro j hj hjl
    rw [htklen] at hjl
    rw [getD_take _ _ (show j < mStar by omega)]
    exact hm0first j hj
  have htrunc_none : (generateFromLines E sep decode (lines.take mStar)).2 = none := by
    rw [generateFromLines_drop_nonmain E sep decode m₀ (lines.take mStar) hpre]
    refine generateFromLines_none_of_all E sep decode _ ?_
    intro l hl
    obtain ⟨j, hj, hgd⟩ := mem_getD [] hl
    rw [getD_drop] at hgd
    have hjb : m₀ + j < mStar := by
      simp only [List.length_drop, htklen] at hj
      omega
    rw [getD_take _ _ hjb] at hgd
    obtain ⟨e, he⟩ := (except_toOption_isSome _).mp
      (hfirst (m₀ + j) (by omega) (by omega))
    refine ⟨e, ?_⟩
    rw [hgd] at he
    exact he
  have hlen0 : ¬(jsTrim t).length = 0 := by
    simpa [List.length_eq_zero] using hne
  have hgen : generate E sep decode t =
      generateBlocks E sep decode lines (mainsAux lines 0) := by
    simp only [generate, hlen0, if_false, generateFromLines, mainsOf_eq_mainsAux,
      hlines]
  have htrunc_eq : generateFromLines E sep decode (lines.take mStar) =
      generateBlocks E sep decode (lines.take mStar)
        (mainsAux (lines.take mStar) 0) := by
    simp only [generateFromLines, mainsOf_eq_mainsAux]
  obtain ⟨hc1, hc2⟩ := generateBlocks_cut E sep decode lines
    (lines.getD mStar [], mStar) (mainsAux (lines.drop (mStar + 1)) (mStar + 1))
    (by omega) hbad
    (mainsAux (lines.take mStar) 0) hidx1
    (by rw [← htrunc_eq]; exact htrunc_none)
  refine ⟨?_, ?_, htrunc_none⟩
  · rw [hgen, hmains]
    exact hc2
  · rw [hgen, hmains, htrunc_eq]
    exact hc1

/-- Witness for `malformed_line_aborts` at the template `a\n!\nb`: the block
of `a` stays attached, the error is reported, and nothing of the `!` block or
the `b` block is attached. -/
theorem malformed_line_aborts_witness :
    (generate [] ';' (fun c => c) "a\n!\nb".data).2.isSome = true ∧
    (generate [] ';' (fun c => c) "a\n!\nb".data).1 =
      (generateFromLines [] ';' (fun c => c)
        ((extractLinesFrom "a\n!\nb".data).take 1)).1 ∧
    (generateFromLines [] ';' (fun c => c)
      ((extractLinesFrom "a\n!\nb".data).take 1)).2 = none :=
  malformed_line_aborts [] ';' (fun c => c) "a\n!\nb".data 0 1 1
    (by decide) (by decide) (by decide) (by decide) (by decide)
    (by intro j hj; exact absurd hj (Nat.not_lt_zero j))
    (by
      intro j h1 h2
      have : j = 0 := by omega
      subst this
      decide)
    (by decide) (by decide)
    (by
      intro j h1 h2
      omega)

end WindowStructure
